import Mathlib

/-!
Verification development for the pdf-stream-engine repository: a shallow
embedding of its content-stream tokenizer, operand/stream parser, the
text-extraction interpreter, the encoding tables and the ToUnicode CMap
engine, together with theorems settling the specification claims.

Modelling conventions:
* Go `[]byte` values and Go `string` values are both byte sequences,
  modelled as `List Nat` (each element a byte value `< 256`); a Go string
  conversion `string(data)` is the identity on the byte sequence.
* Go `float64` values are modelled as `Rat` (exact arithmetic; the claims
  settled here never depend on binary floating-point rounding).
* Fallible Go functions returning `(T, error)` are modelled with `Option`
  or `Except`.
-/

/-- Byte sequences: the model of both Go `[]byte` and Go `string`. -/
abbrev Bytes := List Nat

/-- ASCII string literal helper: the byte sequence of an ASCII Lean string. -/
def asc (s : String) : Bytes := s.data.map Char.toNat

/-- UTF-8 encoding of a code point (no validity substitution). -/
def utf8Encode (c : Nat) : Bytes :=
  if c < 0x80 then [c]
  else if c < 0x800 then [0xC0 + c / 64, 0x80 + c % 64]
  else if c < 0x10000 then [0xE0 + c / 4096, 0x80 + (c / 64) % 64, 0x80 + c % 64]
  else [0xF0 + c / 262144, 0x80 + (c / 4096) % 64, 0x80 + (c / 64) % 64, 0x80 + c % 64]

/-- Go `rune(v)` applied to a 64-bit integer: `rune` is `int32`, so the value
is truncated to its low 32 bits, reinterpreted as signed. Because 2^32
divides 2^64, truncating the exact integer agrees with Go's wrapping `int`
arithmetic followed by the `rune` conversion. -/
def goRune32 (v : Int) : Int :=
  let m := v % 4294967296
  if m < 2147483648 then m else m - 4294967296

/-- Go `string(rune(v))` for an integer `v`: `v` is first truncated to a
signed 32-bit `rune`, then the result is UTF-8 encoded when it is a valid
Unicode scalar value, else the replacement character U+FFFD (Go substitutes
U+FFFD both for out-of-range values and for surrogate code points). -/
def goRuneString (v : Int) : Bytes :=
  let r := goRune32 v
  if 0 ≤ r ∧ r ≤ 0x10FFFF ∧ ¬(0xD800 ≤ r ∧ r ≤ 0xDFFF) then utf8Encode r.toNat
  else utf8Encode 0xFFFD

/-- `winAnsiToUnicode` from `font/ansi.go`: WinAnsi (CP1252) bytes 0x80-0xFF
with a special mapping; bytes absent from the table fall back to Latin-1. -/
def winAnsiToUnicode (b : Nat) : Option Nat :=
  if b = 0x80 then some 0x20AC
  else if b = 0x82 then some 0x201A
  else if b = 0x83 then some 0x0192
  else if b = 0x84 then some 0x201E
  else if b = 0x85 then some 0x2026
  else if b = 0x86 then some 0x2020
  else if b = 0x87 then some 0x2021
  else if b = 0x88 then some 0x02C6
  else if b = 0x89 then some 0x2030
  else if b = 0x8A then some 0x0160
  else if b = 0x8B then some 0x2039
  else if b = 0x8C then some 0x0152
  else if b = 0x8E then some 0x017D
  else if b = 0x91 then some 0x2018
  else if b = 0x92 then some 0x2019
  else if b = 0x93 then some 0x201C
  else if b = 0x94 then some 0x201D
  else if b = 0x95 then some 0x2022
  else if b = 0x96 then some 0x2013
  else if b = 0x97 then some 0x2014
  else if b = 0x98 then some 0x02DC
  else if b = 0x99 then some 0x2122
  else if b = 0x9A then some 0x0161
  else if b = 0x9B then some 0x203A
  else if b = 0x9C then some 0x0153
  else if b = 0x9E then some 0x017E
  else if b = 0x9F then some 0x0178
  else none

/-- `DecodeWinAnsi` from `font/ansi.go`: ASCII passes through, table bytes map
to their Unicode rune, unmapped high bytes are treated as Latin-1. -/
def decodeWinAnsi : Bytes → Bytes
  | [] => []
  | b :: rest =>
    (if b < 0x80 then [b]
     else match winAnsiToUnicode b with
       | some r => utf8Encode r
       | none => utf8Encode b) ++ decodeWinAnsi rest

/-- `pdfDocToUnicode` from `font/ansi.go`: PDFDocEncoding special range. -/
def pdfDocToUnicode (b : Nat) : Option Nat :=
  if b = 0x80 then some 0x2022
  else if b = 0x81 then some 0x2020
  else if b = 0x82 then some 0x2021
  else if b = 0x83 then some 0x2026
  else if b = 0x84 then some 0x2014
  else if b = 0x85 then some 0x2013
  else if b = 0x86 then some 0x0192
  else if b = 0x87 then some 0x2044
  else if b = 0x88 then some 0x2039
  else if b = 0x89 then some 0x203A
  else if b = 0x8A then some 0x2212
  else if b = 0x8B then some 0x2030
  else if b = 0x8C then some 0x201E
  else if b = 0x8D then some 0x201C
  else if b = 0x8E then some 0x201D
  else if b = 0x8F then some 0x2018
  else if b = 0x90 then some 0x2019
  else if b = 0x91 then some 0x201A
  else if b = 0x92 then some 0x2122
  else if b = 0x93 then some 0xFB01
  else if b = 0x94 then some 0xFB02
  else if b = 0x95 then some 0x0141
  else if b = 0x96 then some 0x0152
  else if b = 0x97 then some 0x0160
  else if b = 0x98 then some 0x0178
  else if b = 0x99 then some 0x017D
  else if b = 0x9A then some 0x0131
  else if b = 0x9B then some 0x0142
  else if b = 0x9C then some 0x0153
  else if b = 0x9D then some 0x0161
  else if b = 0x9E then some 0x017E
  else if b = 0x9F then some 0xFFFD
  else none

/-- `DecodePDFDoc` from `font/ansi.go`. -/
def decodePDFDoc : Bytes → Bytes
  | [] => []
  | b :: rest =>
    (if b < 0x80 then [b]
     else if b < 0xA0 then
       match pdfDocToUnicode b with
       | some r => utf8Encode r
       | none => utf8Encode 0xFFFD
     else utf8Encode b) ++ decodePDFDoc rest

/-- `DecodeMacRoman` from `font/ansi.go`: every byte written as a rune
(`WriteRune(rune(b))`), i.e. a Latin-1 style byte-as-codepoint decode. -/
def decodeMacRoman (data : Bytes) : Bytes :=
  (data.map utf8Encode).foldr (· ++ ·) []

/-! ## Tokenizer (`pdfTokenSplit` and the scanner loop, from `parser/parser.go`) -/

/-- `unicode.IsSpace(rune(b))` for a byte `b` (the tokenizer converts single
bytes to runes directly, so 0x85 and 0xA0 count as spaces). -/
def isSpaceByte (b : Nat) : Bool :=
  b = 9 ∨ b = 10 ∨ b = 11 ∨ b = 12 ∨ b = 13 ∨ b = 32 ∨ b = 0x85 ∨ b = 0xA0

/-- `isDelimiter` from `parser/parser.go`. -/
def isDelimiterB (b : Nat) : Bool :=
  b = 40 ∨ b = 41 ∨ b = 60 ∨ b = 62 ∨ b = 91 ∨ b = 93 ∨ b = 123 ∨ b = 125 ∨ b = 47 ∨ b = 37

/-- Hex digit test used by the tokenizer's hex-string branch. -/
def isHexDigitB (b : Nat) : Bool :=
  (48 ≤ b ∧ b ≤ 57) ∨ (97 ≤ b ∧ b ≤ 102) ∨ (65 ≤ b ∧ b ≤ 70)

/-- The whitespace/comment-skipping loop at the top of `pdfTokenSplit`:
number of leading bytes skipped. The flag is true while inside a `%` comment
(a comment ends at a newline or carriage return, which the outer loop then
consumes as whitespace). -/
def skipLoop : Bool → Bytes → Nat
  | _, [] => 0
  | true, b :: rest => if b = 10 ∨ b = 13 then 1 + skipLoop false rest else 1 + skipLoop true rest
  | false, b :: rest =>
    if isSpaceByte b then 1 + skipLoop false rest
    else if b = 37 then 1 + skipLoop true rest
    else 0

/-- Literal-string scan of `pdfTokenSplit` (after the opening parenthesis):
number of bytes consumed including the closing parenthesis of level 1, or
`none` when the input ends first. Arguments: paren nesting level, escaping
flag, remaining bytes. -/
def litScan : Nat → Bool → Bytes → Option Nat
  | _, _, [] => none
  | lvl, true, _ :: r => (litScan lvl false r).map (· + 1)
  | lvl, false, b :: r =>
    if b = 92 then (litScan lvl true r).map (· + 1)
    else if b = 40 then (litScan (lvl + 1) false r).map (· + 1)
    else if b = 41 then
      if lvl = 1 then some 1 else (litScan (lvl - 1) false r).map (· + 1)
    else (litScan lvl false r).map (· + 1)

/-- Hex-string scan of `pdfTokenSplit` (after the opening `<`): number of
bytes consumed; a closing `>` is consumed, an invalid byte terminates the
token early without being consumed, end of input yields `none`. -/
def hexScan : Bytes → Option Nat
  | [] => none
  | b :: r =>
    if b = 62 then some 1
    else if isHexDigitB b ∨ isSpaceByte b then (hexScan r).map (· + 1)
    else some 0

/-- Name/number/operator scan of `pdfTokenSplit`: bytes consumed before the
first whitespace or delimiter byte; `none` when the input ends first. -/
def wordScan : Bytes → Option Nat
  | [] => none
  | b :: r => if isSpaceByte b ∨ isDelimiterB b then some 0 else (wordScan r).map (· + 1)

/-- The literal-string sub-scan inside the dictionary branch of
`pdfTokenSplit`: bytes advanced, stopping at (without consuming) the
parenthesis that closes level 1, or at end of input. -/
def dictInnerLit : Nat → Bool → Bytes → Nat
  | _, _, [] => 0
  | lvl, true, _ :: r => 1 + dictInnerLit lvl false r
  | lvl, false, b :: r =>
    if b = 92 then 1 + dictInnerLit lvl true r
    else if b = 40 then 1 + dictInnerLit (lvl + 1) false r
    else if b = 41 then
      if lvl = 1 then 0 else 1 + dictInnerLit (lvl - 1) false r
    else 1 + dictInnerLit lvl false r

/-- Dictionary scan of `pdfTokenSplit` (after the opening `<<`): bytes
consumed including the `>>` closing level 1, or `none` when input ends. -/
def dictScan : Nat → Bytes → Option Nat
  | _, [] => none
  | lvl, 62 :: 62 :: r2 =>
    if lvl = 1 then some 2 else (dictScan (lvl - 1) r2).map (· + 2)
  | lvl, 60 :: 60 :: r2 => (dictScan (lvl + 1) r2).map (· + 2)
  | lvl, b :: r =>
    if b = 40 then
      let k := dictInnerLit 1 false r
      (dictScan lvl (r.drop (k + 1))).map (· + (k + 2))
    else (dictScan lvl r).map (· + 1)
  termination_by _ l => l.length
  decreasing_by
    all_goals simp_wf
    all_goals omega

/-- `pdfTokenSplit` from `parser/parser.go`: given the buffered data and the
at-end-of-input flag, returns `(advance, token?)`; `(_, none)` models Go's
`nil` token ("need more data" / done). -/
def pdfTokenSplit (data : Bytes) (atEOF : Bool) : Nat × Option Bytes :=
  let start := skipLoop false data
  let rest := data.drop start
  match rest with
  | [] => (start, none)
  | b :: r =>
    let res : Option Nat :=
      if b = 40 then (litScan 1 false r).map (· + 1)
      else if b = 60 then
        match r with
        | 60 :: r2 => (dictScan 1 r2).map (· + 2)
        | _ => (hexScan r).map (· + 1)
      else if b = 91 ∨ b = 93 then some 1
      else if b = 47 then (wordScan r).map (· + 1)
      else wordScan (b :: r)
    match res with
    | some n => (start + n, some (rest.take n))
    | none => if atEOF then (data.length, some rest) else (start, none)

/-- The `bufio.Scanner` driving loop as used by `Parser.Parse` over an
in-memory reader: repeatedly applies `pdfTokenSplit`; empty tokens are
skipped (as `Parse` does). The fuel bounds the number of loop iterations;
`none` models a run that does not terminate within the fuel — in particular
the scanner configuration in which the split function keeps returning an
empty token without advancing, which loops forever in Go. -/
def scanCollect : Nat → Bytes → Bool → Option (List Bytes)
  | 0, _, _ => none
  | fuel + 1, data, sawEOF =>
    if data = [] ∧ ¬ sawEOF then scanCollect fuel data true
    else
      let st := pdfTokenSplit data sawEOF
      let data2 := data.drop st.1
      match st.2 with
      | none => if sawEOF then some [] else scanCollect fuel data2 true
      | some t =>
        (scanCollect fuel data2 sawEOF).map (fun ts => if t.isEmpty then ts else t :: ts)

/-- Tokenizing a whole in-memory stream. The fuel `data.length + 8` is enough
for every terminating scanner run (each iteration either consumes a byte,
observes end of input once, or stops). -/
def tokenize (data : Bytes) : Option (List Bytes) :=
  scanCollect (data.length + 8) data false

/-! ## Operand parser (`parseOperand` and helpers, from `parser/parser.go`) -/

/-- Octal digit test for literal-string escapes. -/
def isOctB (b : Nat) : Bool := 48 ≤ b ∧ b ≤ 55

/-- The escape-processing loop of `parseLiteralString`: decodes the content
between the parentheses (named escapes, 1-3 digit octal escapes truncated to
a byte, unknown escapes dropped, a trailing backslash ignored). -/
def litDecodeF : Nat → Bytes → Bytes
  | 0, _ => []
  | _ + 1, [] => []
  | fuel + 1, 92 :: rest =>
    match rest with
    | [] => []
    | c :: r =>
      if c = 110 then 10 :: litDecodeF fuel r
      else if c = 114 then 13 :: litDecodeF fuel r
      else if c = 116 then 9 :: litDecodeF fuel r
      else if c = 98 then 8 :: litDecodeF fuel r
      else if c = 102 then 12 :: litDecodeF fuel r
      else if c = 40 ∨ c = 41 ∨ c = 92 then c :: litDecodeF fuel r
      else if isOctB c then
        match r with
        | [] => [c - 48]
        | d :: r2 =>
          if isOctB d then
            match r2 with
            | [] => [(c - 48) * 8 + (d - 48)]
            | e :: r3 =>
              if isOctB e then
                (((c - 48) * 64 + (d - 48) * 8 + (e - 48)) % 256) :: litDecodeF fuel r3
              else ((c - 48) * 8 + (d - 48)) :: litDecodeF fuel r2
          else (c - 48) :: litDecodeF fuel r
      else litDecodeF fuel r
  | fuel + 1, c :: rest => c :: litDecodeF fuel rest

/-- Escape decoding of the literal-string content (fuel instantiated so that
every terminating recursion is covered: each step consumes at least one input
byte). -/
def litDecode (s : Bytes) : Bytes := litDecodeF s.length s

/-- `parseLiteralString` from `parser/parser.go`: checks the surrounding
parentheses and decodes escapes; `none` models the error return. -/
def parseLiteralString (token : Bytes) : Option Bytes :=
  if token.length < 2 then none
  else if token.head? ≠ some 40 ∨ token.getLast? ≠ some 41 then none
  else some (litDecode (token.drop 1).dropLast)

/-- Value of a hex digit byte (both cases accepted, as by `strconv.ParseUint`
with base 16). -/
def hexDigVal (b : Nat) : Option Nat :=
  if 48 ≤ b ∧ b ≤ 57 then some (b - 48)
  else if 97 ≤ b ∧ b ≤ 102 then some (b - 87)
  else if 65 ≤ b ∧ b ≤ 70 then some (b - 55)
  else none

/-- Decode an even-length hex digit sequence into bytes; `none` on an odd
length or a non-hex digit (also the model of `encoding/hex.DecodeString`'s
error cases). -/
def hexPairsDecode : Bytes → Option Bytes
  | [] => some []
  | a :: b :: r =>
    match hexDigVal a, hexDigVal b with
    | some x, some y => (hexPairsDecode r).map ((16 * x + y) :: ·)
    | _, _ => none
  | [_] => none

/-- `parseHexString` from `parser/parser.go`: checks the angle brackets,
strips embedded space/newline/CR/tab bytes, pads an odd-length payload with a
trailing `0` digit and decodes byte pairs; `none` models the error return. -/
def parseHexString (token : Bytes) : Option Bytes :=
  if token.length < 2 then none
  else if token.head? ≠ some 60 ∨ token.getLast? ≠ some 62 then none
  else
    let s := ((token.drop 1).dropLast).filter (fun b => ¬(b = 32 ∨ b = 10 ∨ b = 13 ∨ b = 9))
    let s2 := if s.length % 2 = 1 then s ++ [48] else s
    hexPairsDecode s2

/-- Leading decimal digits of a byte sequence, as digit values, with the
remainder. -/
def takeDigits : Bytes → List Nat × Bytes
  | [] => ([], [])
  | b :: r =>
    if 48 ≤ b ∧ b ≤ 57 then
      let p := takeDigits r
      ((b - 48) :: p.1, p.2)
    else ([], b :: r)

/-- Numeric value of a digit list. -/
def digitsToNat (ds : List Nat) : Nat := ds.foldl (fun a d => 10 * a + d) 0

/-- `10 ^ k` as an integer. -/
def tenPow : Nat → Int
  | 0 => 1
  | k + 1 => 10 * tenPow k

/-!
Exact rational arithmetic wrappers. The `Rat` operations of the ambient
library are marked irreducible, which blocks kernel evaluation inside
`decide`; these wrappers compute the same values through `Rat.divInt`.
Go `float64` arithmetic is modelled by these exact operations; the claims
settled in this file never depend on binary floating point rounding.
-/

/-- Exact rational addition. -/
def qAdd (a b : Rat) : Rat := Rat.divInt (a.num * b.den + b.num * a.den) (a.den * b.den)

/-- Exact rational subtraction. -/
def qSub (a b : Rat) : Rat := Rat.divInt (a.num * b.den - b.num * a.den) (a.den * b.den)

/-- Exact rational multiplication. -/
def qMul (a b : Rat) : Rat := Rat.divInt (a.num * b.num) (a.den * b.den)

/-- Strict order on rationals, as a Boolean (the library's `Rat.blt`). -/
def qLt (a b : Rat) : Bool := Rat.blt a b

/-- Absolute value of a rational. -/
def qAbs (a : Rat) : Rat := if qLt a 0 then Rat.neg a else a

/-- Model of `strconv.ParseFloat` on the plain decimal syntax
`[+-]?digits[.digits][(e|E)[+-]digits]` (with at least one mantissa digit),
evaluated exactly over `Rat`. The special forms Go additionally accepts
(`Inf`, `NaN`, hexadecimal floats, digit-separating underscores) are not
modelled; no settled claim depends on them. -/
def parseFloat (s : Bytes) : Option Rat :=
  let sg : Bool × Bytes :=
    match s with
    | 43 :: r => (false, r)
    | 45 :: r => (true, r)
    | _ => (false, s)
  let p1 := takeDigits sg.2
  let ip := p1.1
  let p2 : List Nat × Bytes :=
    match p1.2 with
    | 46 :: r => takeDigits r
    | _ => ([], p1.2)
  let fp := p2.1
  if ip.isEmpty ∧ fp.isEmpty then none
  else
    let base : Int := (digitsToNat (ip ++ fp) : Int)
    let num : Int := if sg.1 then -base else base
    let den : Int := tenPow fp.length
    match p2.2 with
    | [] => some (Rat.divInt num den)
    | e :: r =>
      if e = 101 ∨ e = 69 then
        let esg : Bool × Bytes :=
          match r with
          | 43 :: rr => (false, rr)
          | 45 :: rr => (true, rr)
          | _ => (false, r)
        let p3 := takeDigits esg.2
        if p3.1.isEmpty ∨ ¬p3.2.isEmpty then none
        else
          let ev := digitsToNat p3.1
          some (if esg.1 then Rat.divInt num (den * tenPow ev)
                else Rat.divInt (num * tenPow ev) den)
      else none

/-- The dynamic operand value (`any` in the Go code): a number (`float64`), a
Go string (literal strings, names with the slash stripped, opaque dictionary
tokens and the structural `[`/`]` markers), raw bytes (hex strings), or an
array. -/
inductive Operand where
  | num (q : Rat)
  | str (s : Bytes)
  | bytes (b : Bytes)
  | arr (elems : List Operand)
  deriving Repr

mutual

def Operand.deq : (a b : Operand) → Decidable (a = b)
  | .num a, .num b =>
    match decEq a b with
    | isTrue h => isTrue (by rw [h])
    | isFalse h => isFalse (fun hh => h (by cases hh; rfl))
  | .str a, .str b =>
    match decEq a b with
    | isTrue h => isTrue (by rw [h])
    | isFalse h => isFalse (fun hh => h (by cases hh; rfl))
  | .bytes a, .bytes b =>
    match decEq a b with
    | isTrue h => isTrue (by rw [h])
    | isFalse h => isFalse (fun hh => h (by cases hh; rfl))
  | .arr a, .arr b =>
    match Operand.deqList a b with
    | isTrue h => isTrue (by rw [h])
    | isFalse h => isFalse (fun hh => h (by cases hh; rfl))
  | .num _, .str _ => isFalse (fun h => Operand.noConfusion h)
  | .num _, .bytes _ => isFalse (fun h => Operand.noConfusion h)
  | .num _, .arr _ => isFalse (fun h => Operand.noConfusion h)
  | .str _, .num _ => isFalse (fun h => Operand.noConfusion h)
  | .str _, .bytes _ => isFalse (fun h => Operand.noConfusion h)
  | .str _, .arr _ => isFalse (fun h => Operand.noConfusion h)
  | .bytes _, .num _ => isFalse (fun h => Operand.noConfusion h)
  | .bytes _, .str _ => isFalse (fun h => Operand.noConfusion h)
  | .bytes _, .arr _ => isFalse (fun h => Operand.noConfusion h)
  | .arr _, .num _ => isFalse (fun h => Operand.noConfusion h)
  | .arr _, .str _ => isFalse (fun h => Operand.noConfusion h)
  | .arr _, .bytes _ => isFalse (fun h => Operand.noConfusion h)

def Operand.deqList : (a b : List Operand) → Decidable (a = b)
  | [], [] => isTrue rfl
  | [], _ :: _ => isFalse (fun h => List.noConfusion h)
  | _ :: _, [] => isFalse (fun h => List.noConfusion h)
  | x :: xs, y :: ys =>
    match Operand.deq x y with
    | isTrue h1 =>
      match Operand.deqList xs ys with
      | isTrue h2 => isTrue (by rw [h1, h2])
      | isFalse h2 => isFalse (fun hh => h2 (by cases hh; rfl))
    | isFalse h1 => isFalse (fun hh => h1 (by cases hh; rfl))

end

instance : DecidableEq Operand := Operand.deq

instance : DecidableEq (List Operand) := Operand.deqList

/-- `parseOperand` from `parser/parser.go`; `none` models the error return
(the stream parser then skips the token). -/
def parseOperand (token : Bytes) : Option Operand :=
  match token with
  | [] => none
  | 40 :: _ => (parseLiteralString token).map .str
  | 60 :: 60 :: _ => some (.str token)
  | 60 :: _ => (parseHexString token).map .bytes
  | 47 :: rest => some (.str rest)
  | 91 :: _ => if token = [91] then some (.str [91]) else none
  | 93 :: _ => if token = [93] then some (.str [93]) else none
  | _ =>
    match parseFloat token with
    | some q => some (.num q)
    | none => none

example : parseOperand (asc "(])") = some (.str [93]) := by decide
example : parseOperand (asc "/F1") = some (.str (asc "F1")) := by decide
example : parseOperand (asc "-1.5") = some (.num (Rat.divInt (-3) 2)) := by decide
example : parseOperand (asc "<48 65>") = some (.bytes [0x48, 0x65]) := by decide
example : parseOperand (asc "<486>") = some (.bytes [0x48, 0x60]) := by decide
example : tokenize (asc "BT (a(b)c) % cmt
[1 2] ET") = some [asc "BT", asc "(a(b)c)", asc "[", asc "1", asc "2", asc "]", asc "ET"] := by decide

/-! ## Stream parser (`Parser.Parse` from `parser/parser.go`) -/

/-- `isOperator` from `parser/parser.go`: nonempty and made only of letters,
`*` and the apostrophe byte. -/
def isOperator (token : Bytes) : Bool :=
  ¬token.isEmpty ∧
    token.all (fun b => (97 ≤ b ∧ b ≤ 122) ∨ (65 ≤ b ∧ b ≤ 90) ∨ b = 42 ∨ b = 39)

/-- An emitted operation: operator name with its collected operands. -/
structure Operation where
  name : Bytes
  operands : List Operand
  deriving Repr, DecidableEq

/-- The two fatal structural errors of `Parser.Parse`. -/
inductive ParseErr where
  | unexpectedClose
  | unclosedArray
  deriving Repr, DecidableEq

/-- The loop state of `Parser.Parse`: emitted operations, the pending operand
buffer, and the stack of in-progress arrays (most recently opened first; the
Go code keeps the same stack with the most recent array last). -/
structure PState where
  ops : List Operation
  operands : List Operand
  stack : List (List Operand)
  deriving Repr, DecidableEq

/-- Initial `Parse` state. -/
def initPState : PState := ⟨[], [], []⟩

/-- One iteration of the `Parser.Parse` token loop. -/
def parseStep (st : PState) (token : Bytes) : Except ParseErr PState :=
  if token.isEmpty then .ok st
  else if st.stack.isEmpty ∧ isOperator token then
    .ok { st with ops := st.ops ++ [⟨token, st.operands⟩], operands := [] }
  else
    match parseOperand token with
    | none => .ok st
    | some od =>
      if od = .str [91] then .ok { st with stack := [] :: st.stack }
      else if od = .str [93] then
        match st.stack with
        | [] => .error .unexpectedClose
        | top :: rest =>
          match rest with
          | [] => .ok { st with stack := [], operands := st.operands ++ [.arr top] }
          | parent :: rest2 => .ok { st with stack := (parent ++ [.arr top]) :: rest2 }
      else
        match st.stack with
        | [] => .ok { st with operands := st.operands ++ [od] }
        | top :: rest => .ok { st with stack := (top ++ [od]) :: rest }

/-- The `Parse` token loop over a token list. -/
def parseRun : PState → List Bytes → Except ParseErr PState
  | st, [] => .ok st
  | st, t :: ts =>
    match parseStep st t with
    | .error e => .error e
    | .ok st2 => parseRun st2 ts

/-- `Parser.Parse` at token level: run the loop, then fail if an array is
still open at end of input. -/
def runParse (tokens : List Bytes) : Except ParseErr (List Operation) :=
  match parseRun initPState tokens with
  | .error e => .error e
  | .ok st => if st.stack.isEmpty then .ok st.ops else .error .unclosedArray

def exceptDecEq {ε α : Type} [DecidableEq ε] [DecidableEq α] :
    (a b : Except ε α) → Decidable (a = b)
  | .error x, .error y =>
    match decEq x y with
    | isTrue h => isTrue (by rw [h])
    | isFalse h => isFalse (fun hh => h (by cases hh; rfl))
  | .ok x, .ok y =>
    match decEq x y with
    | isTrue h => isTrue (by rw [h])
    | isFalse h => isFalse (fun hh => h (by cases hh; rfl))
  | .error _, .ok _ => isFalse (fun hh => Except.noConfusion hh)
  | .ok _, .error _ => isFalse (fun hh => Except.noConfusion hh)

instance {ε α : Type} [DecidableEq ε] [DecidableEq α] : DecidableEq (Except ε α) :=
  exceptDecEq

example :
    runParse [asc "[", asc "(a)", asc "-2", asc "]", asc "TJ"] =
      .ok [⟨asc "TJ", [.arr [.str (asc "a"), .num (Rat.divInt (-2) 1)]]⟩] := by decide
example : runParse [asc "]"] = .error .unexpectedClose := by decide
example : runParse [asc "["] = .error .unclosedArray := by decide

/-! ## Interpreter (`interpreter/interpreter.go` and `interpreter/textstate.go`) -/

/-- `TextState` from `interpreter/textstate.go`. -/
structure TextState where
  fontName : Bytes
  fontSize : Rat
  lastY : Rat
  deriving Repr, DecidableEq

/-- `NewTextState`. -/
def newTextState : TextState := ⟨asc "default", 1, 0⟩

/-- The interpreter state: accumulated text, the text-object flag, the text
state and the `q`/`Q` stack (`Copy` is value copying, so the stack entries
are independent values here as in Go). -/
structure Interp where
  builder : Bytes
  inTextObject : Bool
  textState : TextState
  stateStack : List TextState
  deriving Repr, DecidableEq

/-- `NewInterpreter`'s initial state. -/
def newInterp : Interp := ⟨[], false, newTextState, []⟩

/-- The errors `processOperation` can report (Go error messages abstracted to
constructors). -/
inductive IErr where
  | textShowingOutside (name : Bytes)
  | qUnbalanced
  | tfExpects2
  | tfNameNotString
  | tfSizeNotNumber
  | tjExpects1
  | showOperandType
  | tjjExpects1
  | tjjNotArray
  deriving Repr, DecidableEq

/-- `operandToFloat` from `interpreter/interpreter.go`: accepts a number or a
string that parses as one (the `int` case of the Go code is unreachable: the
parser never produces `int` operands). -/
def operandToFloat : Operand → Option Rat
  | .num q => some q
  | .str s => parseFloat s
  | _ => none

/-- `isTextShowingOp` from `interpreter/interpreter.go`. -/
def isTextShowingOp (name : Bytes) : Bool :=
  name = asc "Tj" ∨ name = asc "TJ" ∨ name = [39] ∨ name = [34]

/-- `showText`, parameterized by the hex-string byte decoder so that both
interpreter variants (the fixed WinAnsi one in `interpreter/interpreter.go`
and the font-registry one used by `streamengine`) share one faithful body:
Text operands are appended verbatim, Bytes operands are decoded, anything
else is an error. -/
def showTextG (dec : TextState → Bytes → Bytes) (i : Interp) : Operand → Interp × Option IErr
  | .str s => ({ i with builder := i.builder ++ s }, none)
  | .bytes b => ({ i with builder := i.builder ++ dec i.textState b }, none)
  | _ => (i, some .showOperandType)

/-- The body of the `TJ` element loop (`for _, val := range arr`): a string
element is appended verbatim, a Bytes element is appended after decoding
with the current text state, and any other element — spacing numbers
included — is ignored. -/
def tjStep (dec : TextState → Bytes → Bytes) (acc : Interp) : Operand → Interp
  | .str s => { acc with builder := acc.builder ++ s }
  | .bytes b => { acc with builder := acc.builder ++ dec acc.textState b }
  | _ => acc

/-- `processOperation` from `interpreter/interpreter.go`, parameterized by
the byte decoder used for shown Bytes operands. Returns the state as mutated
at the point of return together with the reported error, if any. -/
def processOperationG (dec : TextState → Bytes → Bytes) (i : Interp) (op : Operation) :
    Interp × Option IErr :=
  if ¬i.inTextObject ∧ isTextShowingOp op.name then (i, some (.textShowingOutside op.name))
  else if op.name = asc "q" then
    ({ i with stateStack := i.stateStack ++ [i.textState] }, none)
  else if op.name = asc "Q" then
    match i.stateStack.getLast? with
    | none => (i, some .qUnbalanced)
    | some ts => ({ i with textState := ts, stateStack := i.stateStack.dropLast }, none)
  else if op.name = asc "BT" then
    ({ i with inTextObject := true, textState := { newTextState with lastY := 0 } }, none)
  else if op.name = asc "ET" then ({ i with inTextObject := false }, none)
  else if op.name = asc "Tf" then
    if op.operands.length < 2 then (i, some .tfExpects2)
    else
      match op.operands.get? 0 with
      | some (.str fn) =>
        match (op.operands.get? 1).bind operandToFloat with
        | some fs =>
          ({ i with textState := { i.textState with fontName := fn, fontSize := fs } }, none)
        | none => (i, some .tfSizeNotNumber)
      | _ => (i, some .tfNameNotString)
  else if op.name = asc "Tj" then
    match op.operands.get? 0 with
    | some od => showTextG dec i od
    | none => (i, some .tjExpects1)
  else if op.name = asc "TJ" then
    match op.operands.get? 0 with
    | some (.arr elems) =>
      (elems.foldl (tjStep dec) i, none)
    | some _ => (i, some .tjjNotArray)
    | none => (i, some .tjjExpects1)
  else if op.name = asc "T*" then
    let ts := { i.textState with lastY := qSub i.textState.lastY i.textState.fontSize }
    ({ i with builder := i.builder ++ [10], textState := ts }, none)
  else if op.name = asc "Tm" then
    if op.operands.length < 6 then (i, none)
    else
      match (op.operands.get? 5).bind operandToFloat with
      | some f =>
        let i2 :=
          if qLt (qMul i.textState.fontSize (mkRat 1 2)) (qAbs (qSub f i.textState.lastY)) then
            { i with builder := i.builder ++ [10] }
          else i
        ({ i2 with textState := { i2.textState with lastY := f } }, none)
      | none => (i, none)
  else if op.name = asc "Td" ∨ op.name = asc "TD" then
    if op.operands.length < 2 then (i, none)
    else
      match (op.operands.get? 0).bind operandToFloat,
            (op.operands.get? 1).bind operandToFloat with
      | some tx, some ty =>
        if ¬(ty = 0) then
          let ts := { i.textState with lastY := qAdd i.textState.lastY ty }
          ({ i with builder := i.builder ++ [10], textState := ts }, none)
        else if qLt 1 tx then ({ i with builder := i.builder ++ [32] }, none)
        else (i, none)
      | _, _ => (i, none)
  else (i, none)

/-- The `ProcessStream` loop over parsed operations: per-operation errors are
logged and processing continues with the next operation. -/
def runOps (dec : TextState → Bytes → Bytes) (i : Interp) (ops : List Operation) : Interp :=
  ops.foldl (fun st op => (processOperationG dec st op).1) i

/-- ASCII whitespace trimmed by `strings.TrimSpace` (Go additionally trims
non-ASCII Unicode spaces, which no settled claim exercises). -/
def isTrimByte (b : Nat) : Bool := b = 9 ∨ b = 10 ∨ b = 11 ∨ b = 12 ∨ b = 13 ∨ b = 32

/-- `strings.TrimSpace`. -/
def trimSpaceGo (s : Bytes) : Bytes :=
  ((s.dropWhile isTrimByte).reverse.dropWhile isTrimByte).reverse

/-- `strings.ReplaceAll(s, CRLF, LF)`: left-to-right non-overlapping. -/
def replaceCRLF : Bytes → Bytes
  | [] => []
  | 13 :: 10 :: rest => 10 :: replaceCRLF rest
  | b :: rest => b :: replaceCRLF rest

/-- `GetText` from `interpreter/interpreter.go`. -/
def getText (i : Interp) : Bytes := replaceCRLF (trimSpaceGo i.builder)

/-- The interpreter exactly as in `interpreter/interpreter.go`, whose
`showText` decodes every Bytes operand with `DecodeWinAnsi`. -/
def processOperation (i : Interp) (op : Operation) : Interp × Option IErr :=
  processOperationG (fun _ b => decodeWinAnsi b) i op

/-! ## CMap engine and fonts (`font/cmap.go`, `font/font.go`, `font/registry.go`) -/

/-- Lowercase hex digit character of a digit value. -/
def hexDig (k : Nat) : Nat := if k < 10 then 48 + k else 87 + k

/-- Minimal-width lowercase hex digits of a natural number (Go `%x`), via
structural fuel (`n` itself bounds the number of digits). -/
def hexNatF : Nat → Nat → Bytes
  | 0, n => [hexDig (n % 16)]
  | fuel + 1, n => if n < 16 then [hexDig n] else hexNatF fuel (n / 16) ++ [hexDig (n % 16)]

/-- Minimal-width lowercase hex digits of a natural number (Go `%x`). -/
def hexNat (n : Nat) : Bytes := hexNatF n n

/-- Go `fmt.Sprintf("%02x", n)` for a nonnegative value: zero-padded to
width 2. -/
def sprintf02xN (n : Nat) : Bytes := if n < 16 then [48, hexDig n] else hexNat n

/-- Go `fmt.Sprintf("%02x", i)` for an `int`: negative values print a sign
followed by the magnitude (already at least two characters wide). -/
def sprintf02xI (i : Int) : Bytes :=
  if i < 0 then 45 :: hexNat i.natAbs else sprintf02xN i.toNat

/-- The CMap mapping table: Go map modelled as an insertion-ordered
association list with overwrite-on-duplicate-key semantics. -/
abbrev CMapM := List (Bytes × Bytes)

/-- Go map assignment `m[k] = v`. -/
def mapInsert (k v : Bytes) (m : CMapM) : CMapM :=
  if m.any (fun p => p.1 = k) then m.map (fun p => if p.1 = k then (k, v) else p)
  else m ++ [(k, v)]

/-- Go map read `m[k]`. -/
def mapLookup (k : Bytes) (m : CMapM) : Option Bytes :=
  match m.find? (fun p => p.1 = k) with
  | some p => some p.2
  | none => none

/-- `CMap.Lookup`: format the code bytes as a lowercase zero-padded hex key
(`%02x` per byte) and look it up. -/
def cmLookup (m : CMapM) (code : Bytes) : Option Bytes :=
  mapLookup ((code.map sprintf02xN).foldr (· ++ ·) []) m

/-- `CMap.DecodeString` loop: greedy 2-byte-then-1-byte decoding with U+FFFD
for unmapped positions, via structural fuel (each step consumes one or two
input bytes). -/
def cmDecodeStringF (m : CMapM) : Nat → Bytes → Bytes
  | 0, _ => []
  | _ + 1, [] => []
  | fuel + 1, a :: rest =>
    match rest with
    | b :: rest2 =>
      match cmLookup m [a, b] with
      | some u => u ++ cmDecodeStringF m fuel rest2
      | none =>
        match cmLookup m [a] with
        | some u => u ++ cmDecodeStringF m fuel rest
        | none => utf8Encode 0xFFFD ++ cmDecodeStringF m fuel rest
    | [] =>
      match cmLookup m [a] with
      | some u => u
      | none => utf8Encode 0xFFFD

/-- `CMap.DecodeString` from `font/cmap.go`. -/
def cmDecodeString (m : CMapM) (data : Bytes) : Bytes := cmDecodeStringF m data.length data

/-- `EncodingType` from `font/font.go`. -/
inductive EncodingType where
  | unknown
  | winAnsi
  | macRoman
  | pdfDoc
  | identity
  | custom
  deriving Repr, DecidableEq

/-- `Font` from `font/font.go` (the ToUnicode CMap carried as its mapping
table). -/
structure Font where
  name : Bytes
  baseFont : Bytes
  encoding : EncodingType
  toUnicode : Option CMapM
  isMultiByte : Bool
  deriving Repr, DecidableEq

/-- `NewFont`. -/
def newFont (name : Bytes) : Font := ⟨name, [], .unknown, none, false⟩

/-- `Font.DecodeText` from `font/font.go`: ToUnicode CMap first, then the
declared encoding (only WinAnsi and PDFDoc have table decoders here; the
Identity case and the default case — including MacRoman and Unknown — return
the raw bytes unchanged, since Go's `string(data)` conversion is the identity
on bytes). -/
def fontDecodeText (f : Font) (data : Bytes) : Bytes :=
  match f.toUnicode with
  | some cm => cmDecodeString cm data
  | none =>
    match f.encoding with
    | .winAnsi => decodeWinAnsi data
    | .pdfDoc => decodePDFDoc data
    | .identity => data
    | _ => data

/-- `FontRegistry` from `font/registry.go` (the lock only guards the map;
single-interpreter runs are sequential, so the registry is a plain map with a
default font here). -/
structure FontRegistry where
  fonts : List (Bytes × Font)
  defaultFont : Font
  deriving Repr, DecidableEq

/-- `NewFontRegistry`: default font uses WinAnsi. -/
def newFontRegistry : FontRegistry :=
  ⟨[], { newFont (asc "DefaultFont") with encoding := .winAnsi }⟩

/-- `FontRegistry.MustLookup`: the named font, or the default when absent. -/
def mustLookup (fr : FontRegistry) (name : Bytes) : Font :=
  match fr.fonts.find? (fun p => p.1 = name) with
  | some p => p.2
  | none => fr.defaultFont

/-- `isHexString` from `font/cmap.go`: trimmed token starts with `<` and ends
with `>`. -/
def isHexStringT (s : Bytes) : Bool :=
  let t := trimSpaceGo s
  t.head? = some 60 ∧ t.getLast? = some 62

/-- `stripHexBrackets` from `font/cmap.go`: trim, then remove one leading `<`
and one trailing `>` when present. -/
def stripHexBracketsT (s : Bytes) : Bytes :=
  let t := trimSpaceGo s
  let t2 := match t with
    | 60 :: r => r
    | _ => t
  if t2.getLast? = some 62 then t2.dropLast else t2

/-- Value of a nonempty all-hex digit sequence. -/
def hexDigitsValAux : Bytes → Nat → Option Nat
  | [], acc => some acc
  | b :: r, acc =>
    match hexDigVal b with
    | some v => hexDigitsValAux r (16 * acc + v)
    | none => none

/-- `hexStringToInt` (`strconv.ParseInt(s, 16, 64)`): optional sign and at
least one hex digit. The 64-bit overflow error is not modelled; no settled
claim involves values of that size. -/
def parseIntHex (s : Bytes) : Option Int :=
  let sg : Bool × Bytes :=
    match s with
    | 43 :: r => (false, r)
    | 45 :: r => (true, r)
    | _ => (false, s)
  match sg.2 with
  | [] => none
  | l =>
    match hexDigitsValAux l 0 with
    | some n => some (if sg.1 then -(n : Int) else (n : Int))
    | none => none

/-- UTF-16BE units decoded independently (`hexToUnicodeString`'s loop): each
2-byte unit becomes a rune via Go rune-to-string conversion (surrogate units
therefore become U+FFFD); a trailing odd byte is dropped. -/
def utf16Units : Bytes → Bytes
  | a :: b :: rest => goRuneString ((a : Int) * 256 + (b : Int)) ++ utf16Units rest
  | _ => []

/-- `hexToUnicodeString` from `font/cmap.go`. -/
def hexToUnicodeString (hexStr : Bytes) : Option Bytes :=
  match hexPairsDecode hexStr with
  | none => none
  | some data =>
    if data.length ≥ 2 then
      let d2 := match data with
        | 0xFE :: 0xFF :: r => r
        | _ => data
      some (utf16Units d2)
    else
      match data with
      | [b] => some (goRuneString (b : Int))
      | _ => none

/-- The `bfrange` expansion loop (`for code := startCode; code <= endCode;
code++`), unrolled over the size of the range: inserts
`%02x(code) -> string(rune(dst + offset))` in ascending order. -/
def rangeInsertGo : Nat → Int → Int → CMapM → CMapM
  | 0, _, _, m => m
  | n + 1, c, v, m => rangeInsertGo n (c + 1) (v + 1) (mapInsert (sprintf02xI c) (goRuneString v) m)

/-- The whole `bfrange` entry expansion. -/
def rangeInsert (m : CMapM) (s e d : Int) : CMapM :=
  if e < s then m else rangeInsertGo ((e - s).toNat + 1) s d m

/-- The fatal CMap parse errors (unterminated sections / EOF mid-entry). -/
inductive CErr where
  | bfcharUnterminated
  | bfcharEOF
  | bfrangeUnterminated
  | bfrangeEOFEnd
  | bfrangeEOFDst
  deriving Repr, DecidableEq

/-- Control state of `ParseToUnicodeCMap`/`parseBfChar`/`parseBfRange`,
written as one token-at-a-time state machine (the Go code expresses the same
control flow with nested scanner loops). -/
inductive CMode where
  | top
  | bfchar
  | bfcharDst (src : Bytes)
  | bfrange
  | bfrangeEnd (src : Bytes)
  | bfrangeDst (src srcEnd : Bytes)
  deriving Repr, DecidableEq

/-- `ParseToUnicodeCMap` over the word-split token list. -/
def parseCMapTokens : CMode → CMapM → List Bytes → Except CErr CMapM
  | .top, m, [] => .ok m
  | .bfchar, _, [] => .error .bfcharUnterminated
  | .bfcharDst _, _, [] => .error .bfcharEOF
  | .bfrange, _, [] => .error .bfrangeUnterminated
  | .bfrangeEnd _, _, [] => .error .bfrangeEOFEnd
  | .bfrangeDst _ _, _, [] => .error .bfrangeEOFDst
  | .top, m, t :: ts =>
    if t = asc "beginbfchar" then parseCMapTokens .bfchar m ts
    else if t = asc "beginbfrange" then parseCMapTokens .bfrange m ts
    else parseCMapTokens .top m ts
  | .bfchar, m, t :: ts =>
    if t = asc "endbfchar" then parseCMapTokens .top m ts
    else
      let srcCode := trimSpaceGo t
      if ¬isHexStringT srcCode then parseCMapTokens .bfchar m ts
      else parseCMapTokens (.bfcharDst srcCode) m ts
  | .bfcharDst src, m, t :: ts =>
    let dst := trimSpaceGo t
    if ¬isHexStringT dst then parseCMapTokens .bfchar m ts
    else
      match hexToUnicodeString (stripHexBracketsT dst) with
      | none => parseCMapTokens .bfchar m ts
      | some u => parseCMapTokens .bfchar (mapInsert (stripHexBracketsT src) u m) ts
  | .bfrange, m, t :: ts =>
    if t = asc "endbfrange" then parseCMapTokens .top m ts
    else
      let srcStart := trimSpaceGo t
      if ¬isHexStringT srcStart then parseCMapTokens .bfrange m ts
      else parseCMapTokens (.bfrangeEnd srcStart) m ts
  | .bfrangeEnd src, m, t :: ts =>
    let srcEnd := trimSpaceGo t
    if ¬isHexStringT srcEnd then parseCMapTokens .bfrange m ts
    else parseCMapTokens (.bfrangeDst src srcEnd) m ts
  | .bfrangeDst src srcEnd, m, t :: ts =>
    let dst := trimSpaceGo t
    if dst.head? = some 91 then parseCMapTokens .bfrange m ts
    else if ¬isHexStringT dst then parseCMapTokens .bfrange m ts
    else
      match parseIntHex (stripHexBracketsT src), parseIntHex (stripHexBracketsT srcEnd),
            parseIntHex (stripHexBracketsT dst) with
      | some s, some e, some d => parseCMapTokens .bfrange (rangeInsert m s e d) ts
      | _, _, _ => parseCMapTokens .bfrange m ts

/-- `bufio.ScanWords` splitting over ASCII whitespace (Go also splits on
non-ASCII Unicode spaces, which no settled claim exercises). Accumulator
holds the current word reversed. -/
def wordsAcc : Bytes → Bytes → List Bytes
  | [], acc => if acc.isEmpty then [] else [acc.reverse]
  | b :: r, acc =>
    if isTrimByte b then
      (if acc.isEmpty then wordsAcc r [] else acc.reverse :: wordsAcc r [])
    else wordsAcc r (b :: acc)

/-- `ParseToUnicodeCMap` from `font/cmap.go` over raw CMap program bytes. -/
def parseToUnicodeCMap (data : Bytes) : Except CErr CMapM :=
  parseCMapTokens .top [] (wordsAcc data [])

example :
    parseToUnicodeCMap (asc "beginbfrange <20> <23> <0041> endbfrange") =
      .ok [(asc "20", [0x41]), (asc "21", [0x42]), (asc "22", [0x43]), (asc "23", [0x44])] := by
  decide
example :
    parseToUnicodeCMap (asc "beginbfchar <01> <0048> endbfchar") =
      .ok [(asc "01", [0x48])] := by decide
example :
    (parseToUnicodeCMap (asc "beginbfchar <AB> <0041> endbfchar")).map
      (fun m => cmLookup m [0xAB]) = .ok none := by decide

/-! ## Stream-engine entry points (`streamengine/streamengine.go`) -/

/-- Modelled from the spec: the font-aware `showText` byte decoder of the
interpreter variant constructed by `streamengine` via
`interpreter.NewInterpreter(fontRegistry)`. That interpreter version is
absent from the sources here (only its callers and `Font.DecodeText` are
present); per the spec, a shown Bytes operand "is decoded through the active
font's resolver", i.e. the font resolved from the registry by the current
font name (`MustLookup`, with a guaranteed default), through
`Font.DecodeText`; a nil registry behaves as a fresh registry whose default
font uses WinAnsi. -/
def fontAwareDecode (reg : Option FontRegistry) (ts : TextState) (b : Bytes) : Bytes :=
  let fr := match reg with
    | some fr => fr
    | none => newFontRegistry
  fontDecodeText (mustLookup fr ts.fontName) b

/-- The font-aware `processOperation` (see `fontAwareDecode`). -/
def processOperationF (reg : Option FontRegistry) (i : Interp) (op : Operation) :
    Interp × Option IErr :=
  processOperationG (fontAwareDecode reg) i op

/-- `ProcessStream`: tokenize, parse, then interpret each operation,
continuing past per-operation errors; a parse failure is returned as the
error with the interpreter state untouched. The outer `Option` is the
scanner fuel: `none` models a scanner run that never terminates. -/
def processStreamRun (dec : TextState → Bytes → Bytes) (fuel : Nat) (data : Bytes)
    (i : Interp) : Option (Interp × Option ParseErr) :=
  (scanCollect fuel data false).map (fun toks =>
    match runParse toks with
    | .error e => (i, some e)
    | .ok ops => (runOps dec i ops, none))

/-- `ExtractTextWithFonts` with explicit scanner fuel: whether or not
`ProcessStream` reports an error, the accumulated text is returned
(`GetText`); `none` models the call never returning. -/
def extractTextWithFontsF (fuel : Nat) (data : Bytes) (reg : Option FontRegistry) :
    Option Bytes :=
  (processStreamRun (fontAwareDecode reg) fuel data newInterp).map (fun p => getText p.1)

/-- `ExtractTextWithFonts` from `streamengine/streamengine.go`. -/
def extractTextWithFonts (data : Bytes) (reg : Option FontRegistry) : Option Bytes :=
  extractTextWithFontsF (data.length + 8) data reg

/-- `ExtractText`: the nil-registry entry point. -/
def extractText (data : Bytes) : Option Bytes := extractTextWithFonts data none

example :
    extractText (asc "BT /F1 12 Tf 72 720 Td (Hello World) Tj ET") =
      some (asc "Hello World") := by decide
example :
    extractTextWithFonts (asc "BT /CustomFont 12 Tf <01020304> Tj ET")
      (some { newFontRegistry with
        fonts := [(asc "CustomFont",
          { newFont (asc "CustomFont") with
              encoding := .custom,
              toUnicode := some [(asc "01", asc "H"), (asc "02", asc "e"),
                                 (asc "03", asc "l"), (asc "04", asc "o")] })] }) =
      some (asc "Helo") := by decide
theorem scanStuckOnCloseParen : ∀ n, scanCollect n [41] false = none := by
  intro n
  induction n with
  | zero => rfl
  | succ k ih =>
    have hsplit : pdfTokenSplit [41] false = (0, some []) := by decide
    simp only [scanCollect, hsplit]
    simp [ih]

/-- C2: the claim fails on the code: `ExtractText`/`ExtractTextWithFonts` on
the one-byte stream `)` never returns at all — `pdfTokenSplit` keeps
returning an empty token with zero advance before end of input is seen, so
the `Parse` scanner loop runs forever (modelled as `none` for every fuel
bound). -/
theorem C2_extract_diverges_on_close_paren :
    ∀ fuel : Nat, extractTextWithFontsF fuel (asc ")") none = none := by
  intro fuel
  have ha : asc ")" = [41] := rfl
  simp [extractTextWithFontsF, processStreamRun, ha, scanStuckOnCloseParen]
/-- C9: a literal string decoding to `]` (token `(])`) acts as the
array-close structural marker, aborting `Parse` fatally at depth zero, and a
literal decoding to `[` (token `([)`) opens a phantom array frame; the
concrete one-token streams confirm both fates end in a fatal parse error. -/
theorem C9_literal_bracket_markers :
    (∀ st : PState, st.stack = [] →
      parseStep st (asc "(])") = .error .unexpectedClose) ∧
    (∀ st : PState, parseStep st (asc "([)") = .ok { st with stack := [] :: st.stack }) ∧
    runParse [asc "(])"] = .error .unexpectedClose ∧
    runParse [asc "([)"] = .error .unclosedArray := by
  refine ⟨?_, ?_, by decide, by decide⟩
  · intro st h
    have hop : isOperator (asc "(])") = false := by decide
    have hpo : parseOperand (asc "(])") = some (.str [93]) := by decide
    simp [parseStep, hop, hpo, h]
    decide
  · intro st
    have hop : isOperator (asc "([)") = false := by decide
    have hpo : parseOperand (asc "([)") = some (.str [91]) := by decide
    simp [parseStep, hop, hpo]
    intro hc
    exact absurd hc (by decide)

/-- C9 witness: the depth-zero hypothesis discharged at the initial parser
state. -/
theorem C9_witness :
    initPState.stack = [] ∧
    parseStep initPState (asc "(])") = .error .unexpectedClose :=
  ⟨rfl, C9_literal_bracket_markers.1 initPState rfl⟩
/-- C3: a text-showing operator (`Tj`, `TJ`, `'`, `"`) outside a BT/ET text
object is a reported non-fatal error for that operation only: the state
(including the output text) is unchanged and the `ProcessStream` loop
continues with the remaining operations as if the operation were absent. -/
theorem C3_text_showing_outside_bt :
    ∀ (dec : TextState → Bytes → Bytes) (i : Interp) (op : Operation)
      (rest : List Operation),
      i.inTextObject = false → isTextShowingOp op.name = true →
      processOperationG dec i op = (i, some (.textShowingOutside op.name)) ∧
      runOps dec i (op :: rest) = runOps dec i rest := by
  intro dec i op rest h1 h2
  have hp : processOperationG dec i op = (i, some (.textShowingOutside op.name)) := by
    simp [processOperationG, h1, h2]
  refine ⟨hp, ?_⟩
  simp only [runOps, List.foldl]
  rw [hp]

/-- C3 witness: hypotheses discharged for a fresh interpreter and a bare `Tj`
operation. -/
theorem C3_witness :
    newInterp.inTextObject = false ∧ isTextShowingOp (asc "Tj") = true ∧
    (processOperationG (fun _ b => decodeWinAnsi b) newInterp ⟨asc "Tj", []⟩ =
        (newInterp, some (.textShowingOutside (asc "Tj"))) ∧
      runOps (fun _ b => decodeWinAnsi b) newInterp [⟨asc "Tj", []⟩] =
        runOps (fun _ b => decodeWinAnsi b) newInterp []) :=
  ⟨rfl, by decide,
    C3_text_showing_outside_bt (fun _ b => decodeWinAnsi b) newInterp ⟨asc "Tj", []⟩ []
      rfl (by decide)⟩
/-- C8 counterexample: the operands of `(Foo) (12) Tf` come from literal
strings (operand 0 is not a Name and operand 1 is not a number), yet `Tf`
reports no error and sets the text state from them, because the code only
checks for a Go string (which literal strings also are) and falls back to
parsing strings as numbers. -/
theorem C8_counterexample :
    tokenize (asc "(Foo) (12) Tf") = some [asc "(Foo)", asc "(12)", asc "Tf"] ∧
    runParse [asc "(Foo)", asc "(12)", asc "Tf"] =
      .ok [⟨asc "Tf", [.str (asc "Foo"), .str (asc "12")]⟩] ∧
    processOperation newInterp ⟨asc "Tf", [.str (asc "Foo"), .str (asc "12")]⟩ =
      ({ newInterp with
          textState := { newTextState with fontName := asc "Foo", fontSize := 12 } },
        none) := by decide

/-- C8 (amended): `Tf` with two operands errors exactly when operand 0 is not
a string-valued operand or operand 1 is not convertible to a number (a number
or a string parsing as one); on error the text state is untouched, otherwise
font name and size are set from the operands. -/
theorem C8_tf_behavior :
    ∀ (dec : TextState → Bytes → Bytes) (i : Interp) (a b : Operand),
      processOperationG dec i ⟨asc "Tf", [a, b]⟩ =
        match a with
        | .str s =>
          (match operandToFloat b with
          | some f =>
            ({ i with textState := { i.textState with fontName := s, fontSize := f } }, none)
          | none => (i, some .tfSizeNotNumber))
        | _ => (i, some .tfNameNotString) := by
  intro dec i a b
  have h0 : isTextShowingOp (asc "Tf") = false := by decide
  have h1 : (asc "Tf" = asc "q") = False := eq_false (by decide)
  have h2 : (asc "Tf" = asc "Q") = False := eq_false (by decide)
  have h3 : (asc "Tf" = asc "BT") = False := eq_false (by decide)
  have h4 : (asc "Tf" = asc "ET") = False := eq_false (by decide)
  simp only [processOperationG, h0, h1, h2, h3, h4, Bool.false_eq_true, and_false,
    if_false, if_neg, ite_false, reduceIte]
  cases a with
  | str s =>
    cases hb : operandToFloat b with
    | some f => simp [hb]
    | none => simp [hb]
  | num q => simp
  | bytes bb => simp
  | arr xs => simp
theorem parseStep_ops : ∀ (st : PState) (t : Bytes) (st2 : PState),
    parseStep st t = .ok st2 → ∀ op ∈ st2.ops, op ∈ st.ops ∨ isOperator op.name = true := by
  intro st t st2 h op hmem
  simp only [parseStep] at h
  split at h
  · cases h; exact .inl hmem
  · split at h
    · next hcond =>
      cases h
      rcases List.mem_append.mp hmem with h' | h'
      · exact .inl h'
      · have := List.mem_singleton.mp h'
        subst this
        exact .inr hcond.2
    · split at h
      · cases h; exact .inl hmem
      · split at h
        · cases h; exact .inl hmem
        · split at h
          · split at h
            · cases h
            · split at h
              · cases h; exact .inl hmem
              · cases h; exact .inl hmem
          · split at h
            · cases h; exact .inl hmem
            · cases h; exact .inl hmem

theorem parseRun_ops : ∀ (ts : List Bytes) (st st2 : PState),
    parseRun st ts = .ok st2 → ∀ op ∈ st2.ops, op ∈ st.ops ∨ isOperator op.name = true := by
  intro ts
  induction ts with
  | nil => intro st st2 h op hmem; cases h; exact .inl hmem
  | cons t ts ih =>
    intro st st2 h op hmem
    simp only [parseRun] at h
    cases hstep : parseStep st t with
    | error e => rw [hstep] at h; cases h
    | ok stm =>
      rw [hstep] at h
      rcases ih stm st2 h op hmem with h' | h'
      · exact parseStep_ops st t stm hstep op h'
      · exact .inr h'

/-- C10: `Parse` never emits an operation named `"` — every emitted name
satisfies the operator predicate, which accepts only letters, `*` and `'` —
even though the interpreter lists `"` as a text-showing operator. -/
theorem C10_no_double_quote_operation :
    ∀ (ts : List Bytes) (ops : List Operation), runParse ts = .ok ops →
      isTextShowingOp (asc "\"") = true ∧ ∀ op ∈ ops, ¬op.name = asc "\"" := by
  intro ts ops h
  refine ⟨by decide, ?_⟩
  intro op hmem heq
  simp only [runParse] at h
  cases hrun : parseRun initPState ts with
  | error e => rw [hrun] at h; cases h
  | ok st =>
    rw [hrun] at h
    replace h : (if st.stack.isEmpty = true then Except.ok st.ops
        else Except.error ParseErr.unclosedArray) = Except.ok ops := h
    by_cases hs : st.stack.isEmpty
    · rw [if_pos hs] at h
      cases h
      rcases parseRun_ops ts initPState st hrun op hmem with h' | h'
      · simp [initPState] at h'
      · rw [heq] at h'
        exact absurd h' (by decide)
    · rw [if_neg hs] at h; cases h

/-- C10 witness: a concrete parse with an emitted operation. -/
theorem C10_witness :
    runParse [asc "BT"] = .ok [⟨asc "BT", []⟩] ∧
      ¬(Operation.mk (asc "BT") []).name = asc "\"" :=
  ⟨by decide,
    (C10_no_double_quote_operation [asc "BT"] [⟨asc "BT", []⟩] (by decide)).2 _ (by simp)⟩
/-- The decoding policy exactly as claim C1 words it: the font's ToUnicode
CMap if present, else the font's declared single-byte encoding (the
repository's table decoders: WinAnsi, MacRoman, PDFDoc), else a raw
byte-as-codepoint fallback. -/
def fontResolverClaim (f : Font) (data : Bytes) : Bytes :=
  match f.toUnicode with
  | some cm => cmDecodeString cm data
  | none =>
    match f.encoding with
    | .winAnsi => decodeWinAnsi data
    | .macRoman => decodeMacRoman data
    | .pdfDoc => decodePDFDoc data
    | _ => (data.map utf8Encode).foldr (· ++ ·) []

/-- The text one `TJ` array element contributes to the builder: string
elements verbatim, Bytes elements through the decoder at the given text
state, anything else (spacing numbers) nothing. -/
def tjShown (dec : TextState → Bytes → Bytes) (ts : TextState) : Operand → Bytes
  | .str s => s
  | .bytes b => dec ts b
  | _ => []

theorem tjFoldEq (dec : TextState → Bytes → Bytes) :
    ∀ (elems : List Operand) (i : Interp),
      elems.foldl (tjStep dec) i =
        { i with builder := i.builder ++ (elems.map (tjShown dec i.textState)).flatten } := by
  intro elems
  induction elems with
  | nil => intro i; simp
  | cons v rest ih =>
    intro i
    cases v with
    | num q => rw [List.foldl_cons]; rw [show tjStep dec i (.num q) = i from rfl, ih]; simp [tjShown]
    | str s => rw [List.foldl_cons]; rw [ih]; simp [tjStep, tjShown]
    | bytes b => rw [List.foldl_cons]; rw [ih]; simp [tjStep, tjShown]
    | arr xs => rw [List.foldl_cons]; rw [show tjStep dec i (.arr xs) = i from rfl, ih]; simp [tjShown]

/-- A font declaring MacRoman encoding with no ToUnicode CMap. -/
def macRomanFont : Font := { newFont (asc "TT1") with encoding := .macRoman }

/-- A registry holding only `macRomanFont`. -/
def macRomanReg : FontRegistry := { newFontRegistry with fonts := [(asc "TT1", macRomanFont)] }

/-- An interpreter inside a text object with `macRomanFont` selected. -/
def macRomanInterp : Interp :=
  { newInterp with inTextObject := true, textState := { newTextState with fontName := asc "TT1" } }

/-- C1 counterexample: a font declaring MacRoman (and no ToUnicode CMap)
shows byte 0xE9 — through `Tj` and through a `TJ` array element alike — as
the raw byte 0xE9, not through the declared single-byte encoding (whose
decode is the two UTF-8 bytes of U+00E9): `Font.DecodeText` routes MacRoman
to the raw default branch. -/
theorem C1_counterexample :
    processOperationF (some macRomanReg) macRomanInterp ⟨asc "Tj", [.bytes [0xE9]]⟩ =
      ({ macRomanInterp with builder := [0xE9] }, none) ∧
    processOperationF (some macRomanReg) macRomanInterp ⟨asc "TJ", [.arr [.bytes [0xE9]]]⟩ =
      ({ macRomanInterp with builder := [0xE9] }, none) ∧
    fontResolverClaim macRomanFont [0xE9] = [0xC3, 0xA9] ∧
    ¬([0xE9] : Bytes) = [0xC3, 0xA9] := by decide

/-- C1 (amended): inside a text object, a `Tj` Bytes operand — and likewise
every Bytes element of a `TJ` array, each through the `TJ` element loop — is
appended after decoding through the font resolved from the registry
(`Font.DecodeText`), whose policy is: the ToUnicode CMap if present, else
the WinAnsi or PDFDoc table decode when that is the declared encoding, else
the raw bytes unchanged (Identity, MacRoman, Unknown, Custom). -/
theorem C1_bytes_decoding :
    ∀ (reg : Option FontRegistry) (i : Interp) (b : Bytes) (elems : List Operand),
      i.inTextObject = true →
      (processOperationF reg i ⟨asc "Tj", [.bytes b]⟩ =
        ({ i with builder := i.builder ++ fontAwareDecode reg i.textState b }, none)) ∧
      (processOperationF reg i ⟨asc "TJ", [.arr elems]⟩ =
        ({ i with builder := i.builder ++
            (elems.map (tjShown (fontAwareDecode reg) i.textState)).flatten }, none)) ∧
      (∀ (reg2 : FontRegistry) (ts : TextState) (d : Bytes),
        fontAwareDecode (some reg2) ts d = fontDecodeText (mustLookup reg2 ts.fontName) d) ∧
      ∀ (f : Font) (d : Bytes),
        fontDecodeText f d =
          match f.toUnicode with
          | some cm => cmDecodeString cm d
          | none =>
            match f.encoding with
            | .winAnsi => decodeWinAnsi d
            | .pdfDoc => decodePDFDoc d
            | _ => d := by
  intro reg i b elems h
  refine ⟨?_, ?_, fun _ _ _ => rfl, ?_⟩
  · have h1 : (asc "Tj" = asc "q") = False := eq_false (by decide)
    have h2 : (asc "Tj" = asc "Q") = False := eq_false (by decide)
    have h3 : (asc "Tj" = asc "BT") = False := eq_false (by decide)
    have h4 : (asc "Tj" = asc "ET") = False := eq_false (by decide)
    have h5 : (asc "Tj" = asc "Tf") = False := eq_false (by decide)
    simp [processOperationF, processOperationG, h, h1, h2, h3, h4, h5, showTextG]
  · have h1 : (asc "TJ" = asc "q") = False := eq_false (by decide)
    have h2 : (asc "TJ" = asc "Q") = False := eq_false (by decide)
    have h3 : (asc "TJ" = asc "BT") = False := eq_false (by decide)
    have h4 : (asc "TJ" = asc "ET") = False := eq_false (by decide)
    have h5 : (asc "TJ" = asc "Tf") = False := eq_false (by decide)
    have h6 : (asc "TJ" = asc "Tj") = False := eq_false (by decide)
    simp [processOperationF, processOperationG, h, h1, h2, h3, h4, h5, h6]
    rw [tjFoldEq (fontAwareDecode reg) elems i, h]
  · intro f d
    cases hf : f.toUnicode with
    | some cm => simp [fontDecodeText, hf]
    | none =>
      cases he : f.encoding <;> simp [fontDecodeText, hf, he]

/-- C1 witness: the in-text-object hypothesis discharged concretely, for the
`Tj` conjunct and the `TJ` conjunct. -/
theorem C1_witness :
    macRomanInterp.inTextObject = true ∧
    (processOperationF (some macRomanReg) macRomanInterp ⟨asc "Tj", [.bytes [72]]⟩ =
      ({ macRomanInterp with
          builder := macRomanInterp.builder ++
            fontAwareDecode (some macRomanReg) macRomanInterp.textState [72] }, none)) ∧
    (processOperationF (some macRomanReg) macRomanInterp ⟨asc "TJ", [.arr [.bytes [72]]]⟩ =
      ({ macRomanInterp with
          builder := macRomanInterp.builder ++
            (([Operand.bytes [72]]).map
              (tjShown (fontAwareDecode (some macRomanReg)) macRomanInterp.textState)).flatten },
        none)) :=
  ⟨rfl, (C1_bytes_decoding (some macRomanReg) macRomanInterp [72] [.bytes [72]] rfl).1,
    (C1_bytes_decoding (some macRomanReg) macRomanInterp [72] [.bytes [72]] rfl).2.1⟩
/-! ### Helper lemmas: hex formatting and the Go map model -/

/-- Total digit value used to read back `hexDig` images. -/
def hexValTotal (ds : Bytes) : Nat :=
  ds.foldl (fun a d => 16 * a + (if d ≤ 57 then d - 48 else d - 87)) 0

theorem hexValTotal_append (xs : Bytes) (d : Nat) :
    hexValTotal (xs ++ [d]) = 16 * hexValTotal xs + (if d ≤ 57 then d - 48 else d - 87) := by
  simp [hexValTotal, List.foldl_append]

theorem hexDig_ge (v : Nat) : 48 ≤ hexDig v := by
  unfold hexDig; split <;> omega

theorem hexDig_readback (v : Nat) (h : v < 16) :
    (if hexDig v ≤ 57 then hexDig v - 48 else hexDig v - 87) = v := by
  unfold hexDig
  split <;> split <;> omega

theorem hexValTotal_single (d : Nat) :
    hexValTotal [d] = (if d ≤ 57 then d - 48 else d - 87) := by
  simp [hexValTotal]

theorem hexNatF_nonempty_head (fuel n : Nat) :
    ∃ h t, hexNatF fuel n = h :: t ∧ 48 ≤ h := by
  induction fuel generalizing n with
  | zero => exact ⟨hexDig (n % 16), [], rfl, hexDig_ge _⟩
  | succ k ih =>
    by_cases hn : n < 16
    · exact ⟨hexDig n, [], by simp [hexNatF, hn], hexDig_ge _⟩
    · obtain ⟨h, t, he, hge⟩ := ih (n / 16)
      exact ⟨h, t ++ [hexDig (n % 16)], by simp [hexNatF, hn, he], hge⟩

theorem hexNatF_val (fuel n : Nat) (h : n ≤ fuel) : hexValTotal (hexNatF fuel n) = n := by
  induction fuel generalizing n with
  | zero =>
    have h0 : n = 0 := by omega
    subst h0
    rw [show hexNatF 0 0 = [hexDig 0] from rfl, hexValTotal_single, hexDig_readback 0 (by omega)]
  | succ k ih =>
    by_cases hn : n < 16
    · rw [show hexNatF (k + 1) n = [hexDig n] from by simp [hexNatF, hn],
        hexValTotal_single, hexDig_readback n hn]
    · have hdiv : n / 16 ≤ k := by
        have := Nat.div_lt_self (by omega : 0 < n) (by omega : 1 < 16)
        omega
      rw [show hexNatF (k + 1) n = hexNatF k (n / 16) ++ [hexDig (n % 16)] from by
          simp [hexNatF, hn],
        hexValTotal_append, ih (n / 16) hdiv, hexDig_readback (n % 16) (by omega)]
      omega

theorem hexNat_val (n : Nat) : hexValTotal (hexNat n) = n := hexNatF_val n n (Nat.le_refl n)

theorem sprintf02xN_val (n : Nat) : hexValTotal (sprintf02xN n) = n := by
  unfold sprintf02xN
  split
  · next h =>
    show hexValTotal ([48] ++ [hexDig n]) = n
    rw [hexValTotal_append, hexDig_readback n h, hexValTotal_single]
    norm_num
  · exact hexNat_val n

theorem sprintf02xN_inj {a b : Nat} (h : sprintf02xN a = sprintf02xN b) : a = b := by
  have hv := sprintf02xN_val a
  rw [h, sprintf02xN_val] at hv
  omega

theorem sprintf02xN_head (n : Nat) : ∃ h t, sprintf02xN n = h :: t ∧ 48 ≤ h := by
  unfold sprintf02xN
  split
  · exact ⟨48, [hexDig n], rfl, by omega⟩
  · exact hexNatF_nonempty_head n n

theorem hexNat_inj {a b : Nat} (h : hexNat a = hexNat b) : a = b := by
  have hv := hexNat_val a
  rw [h, hexNat_val] at hv
  omega

theorem sprintf02xI_inj {i j : Int} (h : sprintf02xI i = sprintf02xI j) : i = j := by
  unfold sprintf02xI at h
  split at h <;> split at h
  · next hi hj =>
    injection h with h1 h2
    have := hexNat_inj h2
    omega
  · next hi hj =>
    obtain ⟨hh, tt, he, hge⟩ := sprintf02xN_head j.toNat
    rw [he] at h
    injection h with h1 _
    omega
  · next hi hj =>
    obtain ⟨hh, tt, he, hge⟩ := sprintf02xN_head i.toNat
    rw [he] at h
    injection h with h1 _
    omega
  · next hi hj =>
    have := sprintf02xN_inj h
    omega
theorem mapLookup_nil (k : Bytes) : mapLookup k [] = none := rfl

theorem mapLookup_cons (k : Bytes) (a : Bytes × Bytes) (l : CMapM) :
    mapLookup k (a :: l) = if a.1 = k then some a.2 else mapLookup k l := by
  by_cases h : a.1 = k
  · simp [mapLookup, List.find?_cons_of_pos, h]
  · simp only [mapLookup, if_neg h]
    rw [List.find?_cons_of_neg]
    simp [h]

theorem mapLookup_map_self (k v : Bytes) :
    ∀ l : CMapM, (∃ p ∈ l, p.1 = k) →
      mapLookup k (List.map (fun p => if p.1 = k then (k, v) else p) l) = some v := by
  intro l
  induction l with
  | nil => intro h; simp at h
  | cons a l ih =>
    intro h
    by_cases ha : a.1 = k
    · simp [List.map_cons, ha, mapLookup_cons]
    · have h2 : ∃ p ∈ l, p.1 = k := by
        rcases h with ⟨p, hp, hpk⟩
        rcases List.mem_cons.mp hp with rfl | hmem
        · exact absurd hpk ha
        · exact ⟨p, hmem, hpk⟩
      simp [List.map_cons, ha, mapLookup_cons, ih h2]

theorem mapLookup_map_other (k k2 v : Bytes) (hne : ¬k2 = k) :
    ∀ l : CMapM, mapLookup k2 (List.map (fun p => if p.1 = k then (k, v) else p) l) =
      mapLookup k2 l := by
  intro l
  induction l with
  | nil => rfl
  | cons a l ih =>
    by_cases ha : a.1 = k
    · have hkk : ¬(k = k2) := fun hh => hne hh.symm
      simp [List.map_cons, ha, mapLookup_cons, hkk, ih]
    · simp [List.map_cons, mapLookup_cons, ha, ih]

theorem mapLookup_append (k : Bytes) (e : Bytes × Bytes) :
    ∀ l : CMapM, mapLookup k (l ++ [e]) =
      match mapLookup k l with
      | some v => some v
      | none => if e.1 = k then some e.2 else none := by
  intro l
  induction l with
  | nil => simp [mapLookup_cons, mapLookup_nil]
  | cons a l ih =>
    by_cases ha : a.1 = k
    · simp [List.cons_append, mapLookup_cons, ha]
    · simp [List.cons_append, mapLookup_cons, ha, ih]

theorem mapLookup_eq_none (k : Bytes) :
    ∀ l : CMapM, (∀ p ∈ l, ¬p.1 = k) → mapLookup k l = none := by
  intro l
  induction l with
  | nil => intro _; rfl
  | cons a l ih =>
    intro h
    have ha : ¬a.1 = k := h a (List.mem_cons_self a l)
    have ht : ∀ p ∈ l, ¬p.1 = k := fun p hp => h p (List.mem_cons_of_mem a hp)
    simp [mapLookup_cons, ha, ih ht]

/-- Go map semantics: reading `k2` after the assignment `m[k] = v`. -/
theorem mapLookup_insert (k k2 v : Bytes) (m : CMapM) :
    mapLookup k2 (mapInsert k v m) = if k2 = k then some v else mapLookup k2 m := by
  unfold mapInsert
  by_cases hany : m.any (fun p => p.1 = k) = true
  · rw [if_pos hany]
    have hex : ∃ p ∈ m, p.1 = k := by
      rcases List.any_eq_true.mp hany with ⟨p, hp, hpk⟩
      exact ⟨p, hp, of_decide_eq_true hpk⟩
    by_cases hk : k2 = k
    · subst hk
      rw [mapLookup_map_self k2 v m hex, if_pos rfl]
    · rw [mapLookup_map_other k k2 v hk m, if_neg hk]
  · rw [if_neg hany]
    have hall : ∀ p ∈ m, ¬p.1 = k := by
      intro p hp hpk
      exact hany (List.any_eq_true.mpr ⟨p, hp, decide_eq_true hpk⟩)
    rw [mapLookup_append k2 (k, v) m]
    by_cases hk : k2 = k
    · subst hk
      rw [mapLookup_eq_none k2 m hall]
    · have hkk : ¬(k = k2) := fun hh => hk hh.symm
      cases hml : mapLookup k2 m with
      | some w => simp [hml, hk]
      | none => simp [hml, hk, hkk]
theorem rangeGo_lookup_outside (k : Bytes) :
    ∀ (n : Nat) (c v : Int) (m : CMapM),
      (∀ i : Nat, i < n → ¬sprintf02xI (c + i) = k) →
      mapLookup k (rangeInsertGo n c v m) = mapLookup k m := by
  intro n
  induction n with
  | zero => intro c v m _; rfl
  | succ nn ih =>
    intro c v m h
    show mapLookup k
      (rangeInsertGo nn (c + 1) (v + 1) (mapInsert (sprintf02xI c) (goRuneString v) m)) =
        mapLookup k m
    rw [ih (c + 1) (v + 1) _ ?hh, mapLookup_insert, if_neg ?h0]
    case h0 =>
      have h0 := h 0 (by omega)
      intro hkk
      exact h0 (by simpa using hkk.symm)
    case hh =>
      intro i hi
      have hx := h (i + 1) (by omega)
      rwa [show c + ((i + 1 : Nat) : Int) = c + 1 + (i : Int) from by push_cast; ring] at hx

theorem rangeGo_lookup_hit :
    ∀ (n j : Nat) (c v : Int) (m : CMapM), j < n →
      mapLookup (sprintf02xI (c + j)) (rangeInsertGo n c v m) =
        some (goRuneString (v + j)) := by
  intro n
  induction n with
  | zero => intro j c v m h; omega
  | succ nn ih =>
    intro j c v m h
    cases j with
    | zero =>
      show mapLookup (sprintf02xI (c + ((0 : Nat) : Int)))
        (rangeInsertGo nn (c + 1) (v + 1) (mapInsert (sprintf02xI c) (goRuneString v) m)) =
          some (goRuneString (v + ((0 : Nat) : Int)))
      rw [show c + ((0 : Nat) : Int) = c from by push_cast; ring,
          show v + ((0 : Nat) : Int) = v from by push_cast; ring,
          rangeGo_lookup_outside _ nn (c + 1) (v + 1) _ ?out, mapLookup_insert, if_pos rfl]
      case out =>
        intro i hi hkey
        have := sprintf02xI_inj hkey
        omega
    | succ jj =>
      have h2 : jj < nn := by omega
      have hx := ih jj (c + 1) (v + 1) (mapInsert (sprintf02xI c) (goRuneString v) m) h2
      show mapLookup (sprintf02xI (c + ((jj + 1 : Nat) : Int)))
        (rangeInsertGo nn (c + 1) (v + 1) (mapInsert (sprintf02xI c) (goRuneString v) m)) =
          some (goRuneString (v + ((jj + 1 : Nat) : Int)))
      rw [show c + ((jj + 1 : Nat) : Int) = c + 1 + (jj : Int) from by push_cast; ring,
          show v + ((jj + 1 : Nat) : Int) = v + 1 + (jj : Int) from by push_cast; ring]
      exact hx

/-- C5 counterexample: the bfrange entry `<20> <20> <d800>` stores as its
value the replacement character U+FFFD (Go's `string(rune(v))` substitutes it
for the surrogate code point 0xD800), not the code point
`dstStart + (c - srcStart) = 0xD800` the claim prescribes. -/
theorem C5_counterexample :
    parseToUnicodeCMap (asc "beginbfrange <20> <20> <d800> endbfrange") =
      .ok [(asc "20", utf8Encode 0xFFFD)] ∧
    ¬utf8Encode 0xFFFD = utf8Encode 0xD800 := by decide

/-- C5 (amended): a non-array bfrange entry `<srcStart> <srcEnd> <dstStart>`
creates one mapping per code `c` in `[srcStart, srcEnd]`, keyed by
`%02x`-formatted `c`, whose value is `string(rune(dstStart + (c -
srcStart)))` — the destination is truncated to a signed 32-bit `rune` (wrap
modulo 2^32) and the result is the UTF-8 of that code point when it is a
valid Unicode scalar value, else U+FFFD; in particular `<20> <23> <0041>`
yields exactly the four mappings {20:A, 21:B, 22:C, 23:D}, and
`<20> <20> <0100000041>` (destination 2^32 + 0x41) stores "A". -/
theorem C5_bfrange_expansion :
    (∀ (m : CMapM) (s e d c : Int), s ≤ c → c ≤ e →
      mapLookup (sprintf02xI c) (rangeInsert m s e d) = some (goRuneString (d + (c - s)))) ∧
    parseToUnicodeCMap (asc "beginbfrange <20> <23> <0041> endbfrange") =
      .ok [(asc "20", [0x41]), (asc "21", [0x42]), (asc "22", [0x43]), (asc "23", [0x44])] ∧
    parseToUnicodeCMap (asc "beginbfrange <20> <20> <0100000041> endbfrange") =
      .ok [(asc "20", [0x41])] := by
  refine ⟨?_, by decide, by decide⟩
  intro m s e d c h1 h2
  unfold rangeInsert
  rw [if_neg (by omega)]
  have hj : (c - s).toNat < (e - s).toNat + 1 := by omega
  have hx := rangeGo_lookup_hit ((e - s).toNat + 1) (c - s).toNat s d m hj
  rw [show s + (((c - s).toNat : Nat) : Int) = c from by omega,
      show d + (((c - s).toNat : Nat) : Int) = d + (c - s) from by omega] at hx
  exact hx

/-- C5 witness: the range hypotheses discharged at code 0x21 of the example
range. -/
theorem C5_witness :
    ((0x20 : Int) ≤ 0x21 ∧ (0x21 : Int) ≤ 0x23) ∧
    mapLookup (sprintf02xI 0x21) (rangeInsert [] 0x20 0x23 0x41) =
      some (goRuneString (0x41 + (0x21 - 0x20))) :=
  ⟨⟨by norm_num, by norm_num⟩,
    C5_bfrange_expansion.1 [] 0x20 0x23 0x41 0x21 (by norm_num) (by norm_num)⟩
/-- Lowercase hex digit (the digits `CMap.Lookup`'s key format produces). -/
def isLowerHex (b : Nat) : Bool := (48 ≤ b ∧ b ≤ 57) ∨ (97 ≤ b ∧ b ≤ 102)

theorem hexNatF_small (f v : Nat) (h : v < 16) : hexNatF (f + 1) v = [hexDig v] := by
  simp [hexNatF, h]

theorem hexNat_byte (n : Nat) (h1 : 16 ≤ n) (h2 : n < 256) :
    hexNat n = [hexDig (n / 16), hexDig (n % 16)] := by
  obtain ⟨m, rfl⟩ : ∃ m, n = m + 1 := ⟨n - 1, by omega⟩
  unfold hexNat
  rw [show hexNatF (m + 1) (m + 1) =
      hexNatF m ((m + 1) / 16) ++ [hexDig ((m + 1) % 16)] from by
    simp [hexNatF, show ¬(m + 1 < 16) from by omega]]
  obtain ⟨m2, rfl⟩ : ∃ m2, m = m2 + 1 := ⟨m - 1, by omega⟩
  rw [hexNatF_small m2 _ (by omega)]
  rfl

theorem sprintf02x_pair (a b : Nat) (ha : isLowerHex a = true) (hb : isLowerHex b = true) :
    ∃ va vb, hexDigVal a = some va ∧ hexDigVal b = some vb ∧
      16 * va + vb < 256 ∧ sprintf02xN (16 * va + vb) = [a, b] := by
  have hva : ∃ va, hexDigVal a = some va ∧ va < 16 ∧ hexDig va = a := by
    unfold isLowerHex at ha
    unfold hexDigVal hexDig
    simp only [Bool.decide_or, Bool.or_eq_true, decide_eq_true_eq] at ha
    rcases ha with h | h
    · exact ⟨a - 48, by rw [if_pos (by omega)], by omega, by rw [if_pos (by omega)]; omega⟩
    · refine ⟨a - 87, ?_, by omega, by rw [if_neg (by omega)]; omega⟩
      rw [if_neg (by omega), if_pos (by omega)]
  have hvb : ∃ vb, hexDigVal b = some vb ∧ vb < 16 ∧ hexDig vb = b := by
    unfold isLowerHex at hb
    unfold hexDigVal hexDig
    simp only [Bool.decide_or, Bool.or_eq_true, decide_eq_true_eq] at hb
    rcases hb with h | h
    · exact ⟨b - 48, by rw [if_pos (by omega)], by omega, by rw [if_pos (by omega)]; omega⟩
    · refine ⟨b - 87, ?_, by omega, by rw [if_neg (by omega)]; omega⟩
      rw [if_neg (by omega), if_pos (by omega)]
  obtain ⟨va, hva1, hva2, hva3⟩ := hva
  obtain ⟨vb, hvb1, hvb2, hvb3⟩ := hvb
  refine ⟨va, vb, hva1, hvb1, by omega, ?_⟩
  by_cases h0 : va = 0
  · subst h0
    have : 16 * 0 + vb < 16 := by omega
    rw [show sprintf02xN (16 * 0 + vb) = [48, hexDig (16 * 0 + vb)] from by
      unfold sprintf02xN; rw [if_pos this]]
    have ha48 : a = 48 := by
      rw [← hva3]; unfold hexDig; rw [if_pos (by omega)]
    rw [show (16 * 0 + vb) = vb from by omega, hvb3, ha48]
  · have hge : 16 ≤ 16 * va + vb := by omega
    rw [show sprintf02xN (16 * va + vb) = hexNat (16 * va + vb) from by
      unfold sprintf02xN; rw [if_neg (by omega)]]
    rw [hexNat_byte _ hge (by omega)]
    rw [show (16 * va + vb) / 16 = va from by omega,
        show (16 * va + vb) % 16 = vb from by omega, hva3, hvb3]

theorem keyRoundtripAux :
    ∀ (n : Nat) (s : Bytes), s.length ≤ n → (∀ b ∈ s, isLowerHex b = true) →
      s.length % 2 = 0 →
      ∃ code, hexPairsDecode s = some code ∧
        (code.map sprintf02xN).foldr (· ++ ·) [] = s := by
  intro n
  induction n with
  | zero =>
    intro s hlen _ _
    match s with
    | [] => exact ⟨[], rfl, rfl⟩
    | a :: r => simp at hlen
  | succ k ih =>
    intro s hlen hhex heven
    match s with
    | [] => exact ⟨[], rfl, rfl⟩
    | [a] => simp at heven
    | a :: b :: r =>
      have hr : r.length ≤ k := by simp at hlen; omega
      have hrhex : ∀ x ∈ r, isLowerHex x = true := by
        intro x hx; exact hhex x (by simp [hx])
      have hreven : r.length % 2 = 0 := by simp at heven ⊢; omega
      obtain ⟨code, hpd, hkey⟩ := ih r hr hrhex hreven
      obtain ⟨va, vb, hva, hvb, hlt, hpair⟩ :=
        sprintf02x_pair a b (hhex a (by simp)) (hhex b (by simp))
      refine ⟨(16 * va + vb) :: code, ?_, ?_⟩
      · simp [hexPairsDecode, hva, hvb, hpd]
      · simp only [List.map_cons, List.foldr_cons, hkey, hpair]
        rfl
theorem dropWhile_eq_self_of_none {p : Nat → Bool} :
    ∀ l : Bytes, (∀ b ∈ l, p b = false) → l.dropWhile p = l := by
  intro l h
  cases l with
  | nil => rfl
  | cons a r => rw [List.dropWhile_cons_of_neg (by simp [h a (by simp)])]

theorem trimSpaceGo_noop (l : Bytes) (h : ∀ b ∈ l, isTrimByte b = false) :
    trimSpaceGo l = l := by
  unfold trimSpaceGo
  rw [dropWhile_eq_self_of_none l h,
      dropWhile_eq_self_of_none l.reverse (by intro b hb; exact h b (List.mem_reverse.mp hb)),
      List.reverse_reverse]

theorem hexTok_facts (s : Bytes) (h : ∀ b ∈ s, isTrimByte b = false) :
    trimSpaceGo (60 :: s ++ [62]) = 60 :: s ++ [62] ∧
    isHexStringT (60 :: s ++ [62]) = true ∧
    stripHexBracketsT (60 :: s ++ [62]) = s := by
  have hall : ∀ b ∈ 60 :: s ++ [62], isTrimByte b = false := by
    intro b hb
    rcases List.mem_cons.mp hb with rfl | hb2
    · rfl
    · rcases List.mem_append.mp hb2 with hb3 | hb3
      · exact h b hb3
      · rcases List.mem_singleton.mp hb3 with rfl
        rfl
  have htrim := trimSpaceGo_noop _ hall
  have hlast : (60 :: s ++ [62]).getLast? = some 62 := by
    rw [show (60 :: s ++ [62] : Bytes) = (60 :: s) ++ [62] from by simp]
    exact List.getLast?_concat _
  refine ⟨htrim, ?_, ?_⟩
  · unfold isHexStringT
    rw [htrim]
    simp only [hlast]
    simp
  · unfold stripHexBracketsT
    rw [htrim]
    show (if (s ++ [62] : Bytes).getLast? = some 62 then (s ++ [62] : Bytes).dropLast
      else (s ++ [62] : Bytes)) = s
    rw [List.getLast?_concat, if_pos rfl, List.dropLast_concat]

/-- C6 counterexample: the bfchar entry `<AB> <0041>` (uppercase hex) stores
its key verbatim as "AB" — no lowercasing happens — so the subsequent
`Lookup` of byte 0xAB, which formats its key in lowercase, misses the
mapping, contradicting "finds the mapping regardless of the hex-letter
case". -/
theorem C6_counterexample :
    parseToUnicodeCMap (asc "beginbfchar <AB> <0041> endbfchar") =
      .ok [(asc "AB", [0x41])] ∧
    cmLookup [(asc "AB", [0x41])] [0xAB] = none := by decide

/-- C6 (amended): a bfchar entry stores its key as the source hex digits
verbatim (brackets stripped, whitespace trimmed, case preserved); a
subsequent `Lookup` of the corresponding raw bytes finds the mapping when the
source hex was written in even-length lowercase (digits included); uppercase
source keys are not found (see the counterexample). -/
theorem C6_bfchar_key_storage :
    ∀ (s d u : Bytes) (m : CMapM),
      (∀ b ∈ s, isLowerHex b = true) → s.length % 2 = 0 →
      (∀ b ∈ d, isHexDigitB b = true) →
      hexToUnicodeString d = some u →
      (parseCMapTokens .bfchar m [60 :: s ++ [62], 60 :: d ++ [62], asc "endbfchar"] =
        .ok (mapInsert s u m)) ∧
      ∃ code, hexPairsDecode s = some code ∧ cmLookup (mapInsert s u m) code = some u := by
  intro s d u m hs hslen hd hu
  have hsnt : ∀ b ∈ s, isTrimByte b = false := by
    intro b hb
    have h2 : (48 ≤ b ∧ b ≤ 57) ∨ (97 ≤ b ∧ b ≤ 102) := by
      have := hs b hb
      unfold isLowerHex at this
      exact of_decide_eq_true this
    unfold isTrimByte
    apply decide_eq_false
    omega
  have hdnt : ∀ b ∈ d, isTrimByte b = false := by
    intro b hb
    have h2 : (48 ≤ b ∧ b ≤ 57) ∨ (97 ≤ b ∧ b ≤ 102) ∨ (65 ≤ b ∧ b ≤ 70) := by
      have := hd b hb
      unfold isHexDigitB at this
      exact of_decide_eq_true this
    unfold isTrimByte
    apply decide_eq_false
    omega
  obtain ⟨htrimS, hhexS, hstripS⟩ := hexTok_facts s hsnt
  obtain ⟨htrimD, hhexD, hstripD⟩ := hexTok_facts d hdnt
  constructor
  · have hne : ¬(60 :: s ++ [62] : Bytes) = asc "endbfchar" := by
      intro hcontra
      have hh := congrArg List.head? hcontra
      simp [asc] at hh
    simp only [parseCMapTokens, hne, htrimS, hhexS, htrimD, hhexD, hstripS, hstripD, hu,
      not_true, not_false_iff, ite_true, ite_false, if_neg, if_pos, Bool.not_true,
      reduceIte]
  · obtain ⟨code, hpd, hkey⟩ := keyRoundtripAux s.length s (Nat.le_refl _) hs hslen
    refine ⟨code, hpd, ?_⟩
    unfold cmLookup
    rw [show (code.map sprintf02xN).foldr (· ++ ·) [] = s from hkey, mapLookup_insert,
      if_pos rfl]

/-- C6 witness: the lowercase-hex hypotheses discharged for the entry
`<ab> <0041>`. -/
theorem C6_witness :
    ((∀ b ∈ asc "ab", isLowerHex b = true) ∧ (asc "ab").length % 2 = 0 ∧
      (∀ b ∈ asc "0041", isHexDigitB b = true) ∧
      hexToUnicodeString (asc "0041") = some [0x41]) ∧
    (parseCMapTokens .bfchar []
        [60 :: asc "ab" ++ [62], 60 :: asc "0041" ++ [62], asc "endbfchar"] =
      .ok (mapInsert (asc "ab") [0x41] []) ∧
    ∃ code, hexPairsDecode (asc "ab") = some code ∧
      cmLookup (mapInsert (asc "ab") [0x41] []) code = some [0x41]) :=
  ⟨⟨by decide, by decide, by decide, by decide⟩,
    C6_bfchar_key_storage (asc "ab") (asc "0041") [0x41] []
      (by decide) (by decide) (by decide) (by decide)⟩
theorem litDecodeF_cons_ne (k c : Nat) (rest : Bytes) (hc : ¬c = 92) :
    litDecodeF (k + 1) (c :: rest) = c :: litDecodeF k rest := by
  rw [litDecodeF.eq_def]
  split
  · omega
  · simp_all
  · next heq _ => simp_all
  · next a b fuel2 c2 rest2 hnc heq1 heq2 =>
    injection heq2 with e1 e2
    subst e1
    subst e2
    have hk : k = fuel2 := by omega
    subst hk
    rfl
theorem litDecodeF_no_escape :
    ∀ (fuel : Nat) (s : Bytes), s.length ≤ fuel → (∀ b ∈ s, ¬b = 92) →
      litDecodeF fuel s = s := by
  intro fuel
  induction fuel with
  | zero =>
    intro s h1 _
    have hs : s = [] := by
      cases s with
      | nil => rfl
      | cons a r => simp at h1
    subst hs
    rfl
  | succ k ih =>
    intro s h1 h2
    cases s with
    | nil => rfl
    | cons c rest =>
      have hc : ¬c = 92 := h2 c (by simp)
      rw [litDecodeF_cons_ne k c rest hc,
        ih rest (by simp at h1; omega) (fun b hb => h2 b (by simp [hb]))]

/-- Balanced-parentheses counter (the property named by the claim's
"escape-free round trip"): scanning with `k` currently-open parentheses
never closes below zero and ends with zero open. -/
def parenBal : Nat → Bytes → Bool
  | k, [] => k = 0
  | k, b :: r =>
    if b = 40 then parenBal (k + 1) r
    else if b = 41 then (if k = 0 then false else parenBal (k - 1) r)
    else parenBal k r

theorem litScan_balanced :
    ∀ (s : Bytes) (k : Nat), (∀ b ∈ s, ¬b = 92) → parenBal k s = true →
      litScan (k + 1) false (s ++ [41]) = some (s.length + 1) := by
  intro s
  induction s with
  | nil =>
    intro k _ hbal
    have hk : k = 0 := by simpa [parenBal] using hbal
    subst hk
    rfl
  | cons c rest ih =>
    intro k hne hbal
    have hc : ¬c = 92 := hne c (by simp)
    have hnext : ∀ b ∈ rest, ¬b = 92 := fun b hb => hne b (by simp [hb])
    by_cases h40 : c = 40
    · subst h40
      have hbal2 : parenBal (k + 1) rest = true := by simpa [parenBal] using hbal
      rw [show ((40 :: rest : Bytes) ++ [41]) = 40 :: (rest ++ [41]) from by simp,
        show litScan (k + 1) false (40 :: (rest ++ [41])) =
          (litScan (k + 1 + 1) false (rest ++ [41])).map (· + 1) from by simp [litScan],
        ih (k + 1) hnext hbal2]
      simp
    · by_cases h41 : c = 41
      · subst h41
        have hk : ¬k = 0 := by
          intro h0
          subst h0
          simp [parenBal] at hbal
        have hbal2 : parenBal (k - 1) rest = true := by
          have hx := hbal
          simp only [parenBal, if_neg hk, reduceIte] at hx
          simpa using hx
        rw [show ((41 :: rest : Bytes) ++ [41]) = 41 :: (rest ++ [41]) from by simp,
          show litScan (k + 1) false (41 :: (rest ++ [41])) =
            (litScan (k + 1 - 1) false (rest ++ [41])).map (· + 1) from by
              simp [litScan, hk],
          show k + 1 - 1 = (k - 1) + 1 from by omega,
          ih (k - 1) hnext hbal2]
        simp
      · have hbal2 : parenBal k rest = true := by simpa [parenBal, h40, h41] using hbal
        rw [show ((c :: rest : Bytes) ++ [41]) = c :: (rest ++ [41]) from by simp,
          show litScan (k + 1) false (c :: (rest ++ [41])) =
            (litScan (k + 1) false (rest ++ [41])).map (· + 1) from by
              simp [litScan, hc, h40, h41],
          ih k hnext hbal2]
        simp
theorem split_paren_token (s : Bytes) (hne : ∀ b ∈ s, ¬b = 92) (hbal : parenBal 0 s = true) :
    pdfTokenSplit (40 :: s ++ [41]) false =
      (s.length + 2, some (40 :: s ++ [41])) := by
  have hscan : litScan 1 false (s ++ [41]) = some (s.length + 1) :=
    litScan_balanced s 0 hne hbal
  have hskip : skipLoop false (40 :: s ++ [41]) = 0 := by
    simp [skipLoop, isSpaceByte]
  have htake : (40 :: s ++ [41] : Bytes).take (s.length + 1 + 1) = 40 :: s ++ [41] := by
    rw [show s.length + 1 + 1 = (40 :: s ++ [41] : Bytes).length from by simp]
    exact List.take_length _
  simp only [pdfTokenSplit]
  rw [hskip]
  simp [hscan, htake]
theorem scanCollect_empty_false (m : Nat) : scanCollect (m + 2) [] false = some [] := by
  show scanCollect (m + 1 + 1) [] false = some []
  rw [show scanCollect (m + 1 + 1) [] false = scanCollect (m + 1) [] true from by
    simp [scanCollect]]
  simp [scanCollect, pdfTokenSplit, skipLoop]

theorem scan_single (m : Nat) (data : Bytes) (hne : ¬data = [])
    (hsplit : pdfTokenSplit data false = (data.length, some data)) :
    scanCollect (m + 3) data false = some [data] := by
  show scanCollect (m + 2 + 1) data false = some [data]
  rw [show scanCollect (m + 2 + 1) data false =
      (scanCollect (m + 2) (data.drop data.length) false).map
        (fun ts => if data.isEmpty then ts else data :: ts) from by
    simp only [scanCollect, hsplit]
    simp [hne]]
  rw [List.drop_length, scanCollect_empty_false]
  simp [List.isEmpty_eq_true, hne]
/-- C7 counterexample: the literal string `(\)` consists of printable ASCII
only, yet tokenizing and parsing it yields the empty text, not `\`: the
backslash is an escape prefix, and an escaped `)` at end of input leaves the
decoded content empty. -/
theorem C7_counterexample :
    tokenize (asc "(\\)") = some [[40, 92, 41]] ∧
    parseOperand [40, 92, 41] = some (.str []) ∧
    ¬([] : Bytes) = [92] := by decide

/-- C7 (amended): for every content of printable ASCII bytes that contains no
backslash and whose parentheses are balanced, tokenizing the literal string
`( content )` yields it as one token and parsing that token returns exactly
the original content. -/
theorem C7_literal_roundtrip :
    ∀ s : Bytes, (∀ b ∈ s, 32 ≤ b ∧ b ≤ 126) → (∀ b ∈ s, ¬b = 92) →
      parenBal 0 s = true →
      tokenize (40 :: s ++ [41]) = some [40 :: s ++ [41]] ∧
      parseOperand (40 :: s ++ [41]) = some (.str s) := by
  intro s hprint hnb hbal
  have hlen : (40 :: s ++ [41] : Bytes).length = s.length + 2 := by simp
  have hsplit : pdfTokenSplit (40 :: s ++ [41]) false =
      ((40 :: s ++ [41] : Bytes).length, some (40 :: s ++ [41])) := by
    rw [hlen]
    exact split_paren_token s hnb hbal
  have hlast : (40 :: s ++ [41] : Bytes).getLast? = some 41 := by
    rw [show (40 :: s ++ [41] : Bytes) = (40 :: s) ++ [41] from by simp]
    exact List.getLast?_concat _
  constructor
  · unfold tokenize
    rw [hlen, show s.length + 2 + 8 = s.length + 7 + 3 from by omega]
    exact scan_single (s.length + 7) _ (by simp) hsplit
  · have hpls : parseLiteralString (40 :: s ++ [41]) = some s := by
      unfold parseLiteralString
      rw [if_neg (by rw [hlen]; omega), if_neg ?hc]
      · rw [show ((40 :: s ++ [41] : Bytes).drop 1).dropLast = s from by
          simp [List.dropLast_concat]]
        show some (litDecodeF s.length s) = some s
        rw [litDecodeF_no_escape s.length s (Nat.le_refl _) hnb]
      case hc =>
        rw [not_or]
        exact ⟨fun hcon => hcon rfl, fun hcon => hcon hlast⟩
    show Option.map Operand.str (parseLiteralString (40 :: s ++ [41])) = some (Operand.str s)
    rw [hpls]
    rfl

/-- C7 witness: the amended hypotheses discharged for the content `a(b)c`. -/
theorem C7_witness :
    ((∀ b ∈ asc "a(b)c", 32 ≤ b ∧ b ≤ 126) ∧ (∀ b ∈ asc "a(b)c", ¬b = 92) ∧
      parenBal 0 (asc "a(b)c") = true) ∧
    (tokenize (40 :: asc "a(b)c" ++ [41]) = some [40 :: asc "a(b)c" ++ [41]] ∧
      parseOperand (40 :: asc "a(b)c" ++ [41]) = some (.str (asc "a(b)c"))) :=
  ⟨⟨by decide, by decide, by decide⟩,
    C7_literal_roundtrip (asc "a(b)c") (by decide) (by decide) (by decide)⟩
/-- Whether `Parse` fails on a token stream. -/
def parseFails (ts : List Bytes) : Bool :=
  match runParse ts with
  | .error _ => true
  | .ok _ => false

/-- The two structural abort situations exactly as the claim words them,
computed over the array-nesting depth alone: a `]`-valued operand arriving at
depth zero aborts; input ending at positive depth aborts; nothing else does
(operator tokens at depth zero and skipped unparsable operands leave the
depth unchanged, `[` opens, `]` closes). -/
def parseAborts : Nat → List Bytes → Bool
  | d, [] => decide (d ≠ 0)
  | d, t :: ts =>
    if t.isEmpty then parseAborts d ts
    else if d = 0 ∧ isOperator t then parseAborts d ts
    else
      match parseOperand t with
      | none => parseAborts d ts
      | some od =>
        if od = .str [91] then parseAborts (d + 1) ts
        else if od = .str [93] then
          (if d = 0 then true else parseAborts (d - 1) ts)
        else parseAborts d ts

/-- Whether the run from a given state ends in an error, with the final
unclosed-array check applied. -/
def runAborted (st : PState) (ts : List Bytes) : Bool :=
  match parseRun st ts with
  | .error _ => true
  | .ok st2 => !st2.stack.isEmpty

theorem runAborted_cons (st : PState) (t : Bytes) (ts : List Bytes) :
    runAborted st (t :: ts) =
      match parseStep st t with
      | .error _ => true
      | .ok st2 => runAborted st2 ts := by
  simp only [runAborted, parseRun]
  cases parseStep st t <;> rfl

theorem parseAborts_correct :
    ∀ (ts : List Bytes) (st : PState), runAborted st ts = parseAborts st.stack.length ts := by
  intro ts
  induction ts with
  | nil =>
    intro st
    show (!st.stack.isEmpty) = decide (st.stack.length ≠ 0)
    cases st.stack <;> simp
  | cons t ts ih =>
    intro st
    obtain ⟨ops0, opnd0, stk0⟩ := st
    rw [runAborted_cons]
    by_cases he : t.isEmpty
    · have hstep : parseStep ⟨ops0, opnd0, stk0⟩ t = .ok ⟨ops0, opnd0, stk0⟩ := by
        simp [parseStep, he]
      rw [hstep]
      show runAborted ⟨ops0, opnd0, stk0⟩ ts = _
      rw [ih]
      simp [parseAborts, he]
    · cases stk0 with
      | nil =>
        by_cases hio : isOperator t
        · have hstep : parseStep ⟨ops0, opnd0, []⟩ t =
              .ok ⟨ops0 ++ [⟨t, opnd0⟩], [], []⟩ := by
            simp [parseStep, he, hio]
          rw [hstep]
          show runAborted ⟨ops0 ++ [⟨t, opnd0⟩], [], []⟩ ts = _
          rw [ih]
          simp [parseAborts, he, hio]
        · cases hpo : parseOperand t with
          | none =>
            have hstep : parseStep ⟨ops0, opnd0, []⟩ t = .ok ⟨ops0, opnd0, []⟩ := by
              simp [parseStep, he, hio, hpo]
            rw [hstep]
            show runAborted ⟨ops0, opnd0, []⟩ ts = _
            rw [ih]
            simp [parseAborts, he, hio, hpo]
          | some od =>
            by_cases h91 : od = .str [91]
            · subst h91
              have hstep : parseStep ⟨ops0, opnd0, []⟩ t = .ok ⟨ops0, opnd0, [[]]⟩ := by
                simp [parseStep, he, hio, hpo]
              rw [hstep]
              show runAborted ⟨ops0, opnd0, [[]]⟩ ts = _
              rw [ih]
              simp [parseAborts, he, hio, hpo]
            · by_cases h93 : od = .str [93]
              · subst h93
                have hstep : parseStep ⟨ops0, opnd0, []⟩ t = .error .unexpectedClose := by
                  simp [parseStep, he, hio, hpo]
                rw [hstep]
                simp [parseAborts, he, hio, hpo]
              · have hstep : parseStep ⟨ops0, opnd0, []⟩ t =
                    .ok ⟨ops0, opnd0 ++ [od], []⟩ := by
                  simp [parseStep, he, hio, hpo, h91, h93]
                rw [hstep]
                show runAborted ⟨ops0, opnd0 ++ [od], []⟩ ts = _
                rw [ih]
                simp [parseAborts, he, hio, hpo, h91, h93]
      | cons top rest =>
        cases hpo : parseOperand t with
        | none =>
          have hstep : parseStep ⟨ops0, opnd0, top :: rest⟩ t =
              .ok ⟨ops0, opnd0, top :: rest⟩ := by
            simp [parseStep, he, hpo]
          rw [hstep]
          show runAborted ⟨ops0, opnd0, top :: rest⟩ ts = _
          rw [ih]
          simp [parseAborts, he, hpo]
        | some od =>
          by_cases h91 : od = .str [91]
          · subst h91
            have hstep : parseStep ⟨ops0, opnd0, top :: rest⟩ t =
                .ok ⟨ops0, opnd0, [] :: top :: rest⟩ := by
              simp [parseStep, he, hpo]
            rw [hstep]
            show runAborted ⟨ops0, opnd0, [] :: top :: rest⟩ ts = _
            rw [ih]
            simp [parseAborts, he, hpo]
          · by_cases h93 : od = .str [93]
            · subst h93
              cases rest with
              | nil =>
                have hstep : parseStep ⟨ops0, opnd0, [top]⟩ t =
                    .ok ⟨ops0, opnd0 ++ [.arr top], []⟩ := by
                  simp [parseStep, he, hpo]
                rw [hstep]
                show runAborted ⟨ops0, opnd0 ++ [.arr top], []⟩ ts = _
                rw [ih]
                simp [parseAborts, he, hpo]
              | cons parent rest2 =>
                have hstep : parseStep ⟨ops0, opnd0, top :: parent :: rest2⟩ t =
                    .ok ⟨ops0, opnd0, (parent ++ [.arr top]) :: rest2⟩ := by
                  simp [parseStep, he, hpo]
                rw [hstep]
                show runAborted ⟨ops0, opnd0, (parent ++ [.arr top]) :: rest2⟩ ts = _
                rw [ih]
                simp [parseAborts, he, hpo]
            · have hstep : parseStep ⟨ops0, opnd0, top :: rest⟩ t =
                  .ok ⟨ops0, opnd0, (top ++ [od]) :: rest⟩ := by
                simp [parseStep, he, hpo, h91, h93]
              rw [hstep]
              show runAborted ⟨ops0, opnd0, (top ++ [od]) :: rest⟩ ts = _
              rw [ih]
              simp [parseAborts, he, hpo, h91, h93]

/-- C4: `Parse` aborts in exactly the two structural situations — a
`]`-valued operand at array depth zero, or input ending with an array still
open (`parseAborts` tracks precisely those two conditions) — while a single
unparsable operand token is skipped, leaving the state unchanged. -/
theorem C4_parse_abort_conditions :
    (∀ ts : List Bytes, parseFails ts = parseAborts 0 ts) ∧
    (∀ (st : PState) (t : Bytes),
      ¬(st.stack.isEmpty = true ∧ isOperator t = true) → parseOperand t = none →
      parseStep st t = .ok st) := by
  constructor
  · intro ts
    have h := parseAborts_correct ts initPState
    rw [show initPState.stack.length = 0 from rfl] at h
    rw [← h]
    unfold parseFails runAborted runParse
    cases hpr : parseRun initPState ts with
    | error e => rfl
    | ok st2 =>
      by_cases hs : st2.stack.isEmpty
      · simp [hs]
      · simp [hs]
  · intro st t hop hpo
    by_cases he : t.isEmpty
    · simp [parseStep, he]
    · simp [parseStep, he, hpo]
      intro h1 h2
      exact absurd ⟨by simp [h1], h2⟩ hop

/-- C4 witness: the stream `(a) ]` aborts (structural), and the unparsable
operand token `@!` is skipped without error. -/
theorem C4_witness :
    (parseFails [asc "(a)", asc "]"] = parseAborts 0 [asc "(a)", asc "]"] ∧
      parseFails [asc "(a)", asc "]"] = true) ∧
    ((¬(initPState.stack.isEmpty = true ∧ isOperator (asc "@!") = true) ∧
        parseOperand (asc "@!") = none) ∧
      parseStep initPState (asc "@!") = .ok initPState) :=
  ⟨⟨C4_parse_abort_conditions.1 [asc "(a)", asc "]"], by decide⟩,
    ⟨⟨by decide, by decide⟩,
      C4_parse_abort_conditions.2 initPState (asc "@!") (by decide) (by decide)⟩⟩
